import Mathlib

/-!
Verification of the expense-ledger core of the trip-planner app
(`main_v2.py`, Expense Tracker page, Balances tab).

The embedding models the two Python dicts (`balances` and the
`creditors`/`debtors` working dicts of the settlement loop) as ordered
association lists `List (String × ℚ)` with first-occurrence update
semantics, which coincides with Python dict semantics because Python
dicts have unique keys and preserve insertion order.  Python floats are
modelled by exact rationals; the 0.01 tolerance of the source is kept.
-/

namespace SriLankaTrip

/-- The tolerance used by the settlement loop in the source (0.01). -/
def eps : ℚ := 1 / 100

/-- A balance table: ordered association list from participant name to
signed amount, modelling the Python dict `balances` (and the working
dicts `creditors` / `debtors`). -/
abbrev Bal := List (String × ℚ)

/-- The key list of a balance table (Python dict keys, in order). -/
def keys (b : Bal) : List String := b.map Prod.fst

/-- Keys are pairwise distinct: true of every Python dict. -/
def KeysNodup (b : Bal) : Prop := (keys b).Nodup

/-- `balances[k] += dv` on the first occurrence of `k` (the only one,
for a dict). -/
def addVal : Bal → String → ℚ → Bal
  | [], _, _ => []
  | (k, v) :: rest, key, dv =>
      if k = key then (k, v + dv) :: rest else (k, v) :: addVal rest key dv

/-- `d[k] = nv` on the first occurrence of `k`. -/
def setVal : Bal → String → ℚ → Bal
  | [], _, _ => []
  | (k, v) :: rest, key, nv =>
      if k = key then (k, nv) :: rest else (k, v) :: setVal rest key nv

/-- `del d[k]`: removes the first occurrence of `k`. -/
def eraseKey : Bal → String → Bal
  | [], _ => []
  | (k, v) :: rest, key =>
      if k = key then rest else (k, v) :: eraseKey rest key

/-- `d[k]` read (0 if absent; every use in the source is on a present
key). -/
def lookup (b : Bal) (k : String) : ℚ :=
  match b with
  | [] => 0
  | (k0, v) :: rest => if k0 = k then v else lookup rest k

/-- Sum of the stored values. -/
def sumVals (b : Bal) : ℚ := (b.map Prod.snd).sum

/-- Sum of the absolute stored values (termination measure of the
settlement loop). -/
def absSum (b : Bal) : ℚ := (b.map (fun p => |p.2|)).sum

/-! ### Ledger Aggregator (source lines 271-279) -/

/-- One row of the Expenses sheet, as consumed by the balances loop:
`Paid_By`, the numeric `Amount_LKR` (after `pd.to_numeric(...).fillna(0)`)
and the comma-split, stripped `Split_Between` tokens. -/
structure Expense where
  paid_By : String
  amount_LKR : ℚ
  split_Between : List String
deriving DecidableEq, Repr

/-- One step of the dict comprehension `{t: 0 for t in travelers}`:
a repeated name keeps its earlier (zero) entry. -/
def dfkStep (acc : Bal) (t : String) : Bal :=
  if t ∈ keys acc then acc else acc ++ [(t, 0)]

/-- `{t: 0 for t in travelers}`: one zero entry per distinct traveler,
first occurrence wins, insertion order kept. -/
def dictFromKeys (l : List String) : Bal := l.foldl dfkStep []

/-- `[s.strip() for s in str(exp["Split_Between"]).split(",") if s.strip() in travelers]`:
the split tokens restricted to known travelers. -/
def split_list (travelers : List String) (e : Expense) : List String :=
  e.split_Between.filter (fun s => s ∈ travelers)

/-- `share = exp["Amount_LKR"] / len(split_list)`. -/
def share (travelers : List String) (e : Expense) : ℚ :=
  e.amount_LKR / ((split_list travelers e).length : ℚ)

/-- `if p in balances: balances[p] -= share`, the body of the debit loop. -/
def debitStep (sh : ℚ) (bb : Bal) (p : String) : Bal :=
  if p ∈ keys bb then addVal bb p (-sh) else bb

/-- The body of the `for _, exp in expenses_df.iterrows()` loop:
filter the split list to known travelers, skip the row if it becomes
empty, credit the payer (only when tracked) with the full amount and
debit each split member by the equal share. -/
def applyExpense (travelers : List String) (b : Bal) (e : Expense) : Bal :=
  if split_list travelers e = [] then b
  else
    let b1 := if e.paid_By ∈ keys b then addVal b e.paid_By e.amount_LKR else b
    (split_list travelers e).foldl (debitStep (share travelers e)) b1

/-- The whole balances computation of the Balances tab. -/
def computeBalances (travelers : List String) (expenses : List Expense) : Bal :=
  expenses.foldl (applyExpense travelers) (dictFromKeys travelers)

/-! ### Settlement Planner (source lines 286-298) -/

/-- One emitted settlement line: debtor `from_` pays creditor `to_`
the given amount. -/
structure Settlement where
  from_ : String
  to_ : String
  amount : ℚ
deriving DecidableEq, Repr

/-- One comparison step of Python `max(..., key=lambda x: x[1])`:
keep the current entry unless the next one is strictly larger. -/
def pickMax (q r : String × ℚ) : String × ℚ := if r.2 > q.2 then r else q

/-- One comparison step of Python `min(..., key=lambda x: x[1])`. -/
def pickMin (q r : String × ℚ) : String × ℚ := if r.2 < q.2 then r else q

/-- `max(items, key=lambda x: x[1])`: first entry of maximal value. -/
def maxBy : Bal → Option (String × ℚ)
  | [] => none
  | p :: rest => some (rest.foldl pickMax p)

/-- `min(items, key=lambda x: x[1])`: first entry of minimal value. -/
def minBy : Bal → Option (String × ℚ)
  | [] => none
  | p :: rest => some (rest.foldl pickMin p)

/-- One iteration of the `while creditors and debtors` loop: pick the
largest creditor and most-negative debtor, transfer
`amount = min(c_val, -d_val)`, and drop either side once its updated
value is within `eps` of zero.  Returns `none` when either dict is
empty (loop guard). -/
def settleStep (c d : Bal) : Option (Settlement × Bal × Bal) :=
  match maxBy c, minBy d with
  | some (c_name, c_val), some (d_name, d_val) =>
      let amount := min c_val (-d_val)
      let c1 := setVal c c_name (c_val - amount)
      let d1 := setVal d d_name (d_val + amount)
      some (⟨d_name, c_name, amount⟩,
            if |c_val - amount| < eps then eraseKey c1 c_name else c1,
            if |d_val + amount| < eps then eraseKey d1 d_name else d1)
  | _, _ => none

/-- The settlement loop, with explicit fuel (the loop in the source has
no fuel; `settleLoop_fuel_indep` below shows any fuel at least
`c.length + d.length` gives the same, final, result). -/
def settleLoop : Nat → Bal → Bal → List Settlement
  | 0, _, _ => []
  | fuel + 1, c, d =>
      match settleStep c d with
      | none => []
      | some (s, c1, d1) => s :: settleLoop fuel c1 d1

/-- `creditors = {p: b for p, b in balances.items() if b > 0.01}`. -/
def creditorsOf (b : Bal) : Bal := b.filter (fun p => p.2 > eps)

/-- `debtors = {p: b for p, b in balances.items() if b < -0.01}`. -/
def debtorsOf (b : Bal) : Bal := b.filter (fun p => p.2 < -eps)

/-- Entries already within the tolerance, excluded from both working
dicts. -/
def othersOf (b : Bal) : Bal := b.filter (fun p => |p.2| ≤ eps)

/-- The full settlement computation of the Balances tab. -/
def settle (b : Bal) : List Settlement :=
  settleLoop ((creditorsOf b).length + (debtorsOf b).length)
    (creditorsOf b) (debtorsOf b)

/-- Net effect of a settlement list on participant `p`'s balance: a
settlement moves `amount` of debt off the payer `from_` (balance goes
up, toward zero) and `amount` of credit off the receiver `to_`
(balance goes down, toward zero). -/
def delta (p : String) (S : List Settlement) : ℚ :=
  (S.map (fun s =>
    (if s.from_ = p then s.amount else 0) - (if s.to_ = p then s.amount else 0))).sum

/-- Number of balances outside the tolerance. -/
def nonzeroCount (b : Bal) : Nat := (b.filter (fun p => eps < |p.2|)).length

/-! ### Basic facts about the association-list operations -/

theorem eps_pos : 0 < eps := by norm_num [eps]

theorem keys_addVal (b : Bal) (k : String) (v : ℚ) : keys (addVal b k v) = keys b := by
  induction b with
  | nil => rfl
  | cons p rest ih =>
      obtain ⟨k0, v0⟩ := p
      by_cases h : k0 = k <;> simp [addVal, h, keys] at ih ⊢ <;> exact ih

theorem keys_setVal (b : Bal) (k : String) (v : ℚ) : keys (setVal b k v) = keys b := by
  induction b with
  | nil => rfl
  | cons p rest ih =>
      obtain ⟨k0, v0⟩ := p
      by_cases h : k0 = k <;> simp [setVal, h, keys] at ih ⊢ <;> exact ih

theorem length_setVal (b : Bal) (k : String) (v : ℚ) :
    (setVal b k v).length = b.length := by
  have h := keys_setVal b k v
  have h1 : (keys (setVal b k v)).length = (keys b).length := by rw [h]
  simpa [keys] using h1

theorem eraseKey_sublist (b : Bal) (k : String) : (eraseKey b k).Sublist b := by
  induction b with
  | nil => simp [eraseKey]
  | cons p rest ih =>
      obtain ⟨k0, v0⟩ := p
      by_cases h : k0 = k
      · simp [eraseKey, h]
      · simpa [eraseKey, h] using ih.cons₂ (k0, v0)

theorem mem_of_mem_eraseKey {b : Bal} {k : String} {q : String × ℚ}
    (h : q ∈ eraseKey b k) : q ∈ b :=
  (eraseKey_sublist b k).subset h

theorem keys_eraseKey_subset (b : Bal) (k : String) :
    keys (eraseKey b k) ⊆ keys b :=
  ((eraseKey_sublist b k).map Prod.fst).subset

theorem length_eraseKey_le (b : Bal) (k : String) :
    (eraseKey b k).length ≤ b.length :=
  (eraseKey_sublist b k).length_le

theorem length_eraseKey_lt {b : Bal} {k : String} (h : k ∈ keys b) :
    (eraseKey b k).length < b.length := by
  induction b with
  | nil => simp [keys] at h
  | cons p rest ih =>
      obtain ⟨k0, v0⟩ := p
      by_cases hk : k0 = k
      · simp [eraseKey, hk]
      · have h' : k ∈ keys rest := by
          simp [keys] at h
          rcases h with h | h
          · exact absurd h.symm hk
          · simpa [keys] using h
        simpa [eraseKey, hk] using ih h'

theorem mem_setVal_cases {b : Bal} {k : String} {v : ℚ} {q : String × ℚ}
    (h : q ∈ setVal b k v) : q = (k, v) ∨ q ∈ b := by
  induction b with
  | nil => simp [setVal] at h
  | cons p rest ih =>
      obtain ⟨k0, v0⟩ := p
      by_cases hk : k0 = k
      · subst hk
        simp [setVal] at h
        rcases h with h | h
        · exact Or.inl (by simp [h])
        · exact Or.inr (by simp [h])
      · simp [setVal, hk] at h
        rcases h with h | h
        · exact Or.inr (by simp [h])
        · rcases ih h with h' | h'
          · exact Or.inl h'
          · exact Or.inr (by simp [h'])

theorem mem_setVal_of_ne {b : Bal} {k : String} {v : ℚ} {q : String × ℚ}
    (hq : q ∈ b) (hne : q.1 ≠ k) : q ∈ setVal b k v := by
  induction b with
  | nil => simp at hq
  | cons p rest ih =>
      obtain ⟨k0, v0⟩ := p
      rcases List.mem_cons.mp hq with h | h
      · subst h
        have : k0 ≠ k := hne
        simp [setVal, this]
      · by_cases hk : k0 = k
        · subst hk
          simp [setVal]
          exact Or.inr h
        · simp [setVal, hk]
          exact Or.inr (ih h)

theorem mem_eraseKey_of_ne {b : Bal} {k : String} {q : String × ℚ}
    (hq : q ∈ b) (hne : q.1 ≠ k) : q ∈ eraseKey b k := by
  induction b with
  | nil => simp at hq
  | cons p rest ih =>
      obtain ⟨k0, v0⟩ := p
      rcases List.mem_cons.mp hq with h | h
      · subst h
        have : k0 ≠ k := hne
        simp [eraseKey, this]
      · by_cases hk : k0 = k
        · simpa [eraseKey, hk] using h
        · simp [eraseKey, hk]
          exact Or.inr (ih h)

theorem eraseKey_setVal (b : Bal) (k : String) (v : ℚ) :
    eraseKey (setVal b k v) k = eraseKey b k := by
  induction b with
  | nil => rfl
  | cons p rest ih =>
      obtain ⟨k0, v0⟩ := p
      by_cases hk : k0 = k <;> simp [setVal, eraseKey, hk, ih]

theorem mem_setVal_self {b : Bal} {k : String} (v : ℚ) (h : k ∈ keys b) :
    (k, v) ∈ setVal b k v := by
  induction b with
  | nil => simp [keys] at h
  | cons p rest ih =>
      obtain ⟨k0, v0⟩ := p
      by_cases hk : k0 = k
      · simp [setVal, hk]
      · have h' : k ∈ keys rest := by
          simp [keys] at h
          rcases h with h | h
          · exact absurd h.symm hk
          · simpa [keys] using h
        simp [setVal, hk]
        exact Or.inr (ih h')

theorem keysNodup_setVal {b : Bal} {k : String} {v : ℚ} (h : KeysNodup b) :
    KeysNodup (setVal b k v) := by
  unfold KeysNodup at h ⊢
  rwa [keys_setVal]

theorem keysNodup_eraseKey {b : Bal} {k : String} (h : KeysNodup b) :
    KeysNodup (eraseKey b k) :=
  ((eraseKey_sublist b k).map Prod.fst).nodup h

theorem keysNodup_cons {k0 : String} {v0 : ℚ} {rest : Bal}
    (h : KeysNodup ((k0, v0) :: rest)) : k0 ∉ keys rest ∧ KeysNodup rest := by
  unfold KeysNodup keys at h ⊢
  simp only [List.map_cons, List.nodup_cons] at h
  exact h

theorem mem_keys_iff {b : Bal} {k : String} : k ∈ keys b ↔ ∃ v, (k, v) ∈ b := by
  unfold keys
  constructor
  · intro h
    rcases List.mem_map.mp h with ⟨p, hp, he⟩
    refine ⟨p.2, ?_⟩
    rw [← he]
    simpa using hp
  · rintro ⟨v, hv⟩
    exact List.mem_map.mpr ⟨(k, v), hv, rfl⟩

theorem not_mem_keys_eraseKey {b : Bal} {k : String} (h : KeysNodup b) :
    k ∉ keys (eraseKey b k) := by
  induction b with
  | nil => simp [eraseKey, keys]
  | cons p rest ih =>
      obtain ⟨k0, v0⟩ := p
      obtain ⟨hnm, hnd⟩ := keysNodup_cons h
      by_cases hk : k0 = k
      · subst hk
        simpa [eraseKey] using hnm
      · intro hmem
        have hkeys : keys (eraseKey ((k0, v0) :: rest) k) = k0 :: keys (eraseKey rest k) := by
          simp [eraseKey, hk, keys]
        rw [hkeys] at hmem
        rcases List.mem_cons.mp hmem with h1 | h1
        · exact hk h1.symm
        · exact ih hnd h1

theorem keysNodup_value_unique {b : Bal} {k : String} {v w : ℚ}
    (h : KeysNodup b) (h1 : (k, v) ∈ b) (h2 : (k, w) ∈ b) : v = w := by
  induction b with
  | nil => simp at h1
  | cons p rest ih =>
      obtain ⟨k0, v0⟩ := p
      obtain ⟨hnm, hnd⟩ := keysNodup_cons h
      rcases List.mem_cons.mp h1 with e1 | e1 <;> rcases List.mem_cons.mp h2 with e2 | e2
      · simp only [Prod.mk.injEq] at e1 e2
        rw [e1.2, e2.2]
      · exfalso
        simp only [Prod.mk.injEq] at e1
        exact hnm (by rw [← e1.1]; exact mem_keys_iff.mpr ⟨w, e2⟩)
      · exfalso
        simp only [Prod.mk.injEq] at e2
        exact hnm (by rw [← e2.1]; exact mem_keys_iff.mpr ⟨v, e1⟩)
      · exact ih hnd e1 e2

theorem absSum_cons (k0 : String) (v0 : ℚ) (rest : Bal) :
    absSum ((k0, v0) :: rest) = |v0| + absSum rest := by
  simp [absSum]

theorem absSum_setVal {b : Bal} {k : String} {v : ℚ} (w : ℚ)
    (h : KeysNodup b) (hm : (k, v) ∈ b) :
    absSum (setVal b k w) = absSum b - |v| + |w| := by
  induction b with
  | nil => simp at hm
  | cons p rest ih =>
      obtain ⟨k0, v0⟩ := p
      obtain ⟨hnm, hnd⟩ := keysNodup_cons h
      rcases List.mem_cons.mp hm with e | e
      · simp only [Prod.mk.injEq] at e
        obtain ⟨ek, ev⟩ := e
        subst ek
        have hstep : setVal ((k, v0) :: rest) k w = (k, w) :: rest := by
          simp [setVal]
        rw [hstep, absSum_cons, absSum_cons, ev]
        ring
      · have hk : k0 ≠ k := by
          intro hkk
          exact hnm (by rw [hkk]; exact mem_keys_iff.mpr ⟨v, e⟩)
        have hstep : setVal ((k0, v0) :: rest) k w = (k0, v0) :: setVal rest k w := by
          simp [setVal, hk]
        rw [hstep, absSum_cons, absSum_cons, ih hnd e]
        ring

theorem absSum_nonneg (b : Bal) : 0 ≤ absSum b := by
  induction b with
  | nil => simp [absSum]
  | cons p rest ih =>
      simp only [absSum, List.map_cons, List.sum_cons] at ih ⊢
      have := abs_nonneg p.2
      linarith

theorem absSum_eraseKey_le (b : Bal) (k : String) :
    absSum (eraseKey b k) ≤ absSum b := by
  induction b with
  | nil => simp [eraseKey]
  | cons p rest ih =>
      obtain ⟨k0, v0⟩ := p
      by_cases hk : k0 = k
      · have hstep : eraseKey ((k0, v0) :: rest) k = rest := by
          simp [eraseKey, hk]
        rw [hstep, absSum_cons]
        have := abs_nonneg v0
        linarith
      · have hstep : eraseKey ((k0, v0) :: rest) k = (k0, v0) :: eraseKey rest k := by
          simp [eraseKey, hk]
        rw [hstep, absSum_cons, absSum_cons]
        linarith

theorem foldl_pickMax_mem (rest : Bal) (p : String × ℚ) :
    rest.foldl pickMax p ∈ p :: rest := by
  induction rest generalizing p with
  | nil => simp
  | cons r rs ih =>
      simp only [List.foldl_cons]
      have h := ih (pickMax p r)
      have hpr : pickMax p r = p ∨ pickMax p r = r := by
        unfold pickMax
        by_cases h : r.2 > p.2 <;> simp [h]
      rcases List.mem_cons.mp h with h1 | h1
      · rcases hpr with h2 | h2 <;> rw [h1, h2] <;> simp
      · simp [h1]

theorem foldl_pickMax_ge (rest : Bal) (p : String × ℚ) :
    ∀ q ∈ p :: rest, q.2 ≤ (rest.foldl pickMax p).2 := by
  induction rest generalizing p with
  | nil => simp
  | cons r rs ih =>
      intro q hq
      simp only [List.foldl_cons]
      have hstep : ∀ x ∈ pickMax p r :: rs, x.2 ≤ ((rs.foldl pickMax (pickMax p r)).2) :=
        ih (pickMax p r)
      have hp : p.2 ≤ (pickMax p r).2 := by
        unfold pickMax
        by_cases h : r.2 > p.2 <;> simp [h] <;> linarith
      have hr : r.2 ≤ (pickMax p r).2 := by
        unfold pickMax
        by_cases h : r.2 > p.2 <;> simp [h] <;> linarith
      have htop : (pickMax p r).2 ≤ (rs.foldl pickMax (pickMax p r)).2 :=
        hstep _ (by simp)
      rcases List.mem_cons.mp hq with h | h
      · rw [h]; linarith
      · rcases List.mem_cons.mp h with h1 | h1
        · rw [h1]; linarith
        · exact hstep q (by simp [h1])

theorem foldl_pickMin_mem (rest : Bal) (p : String × ℚ) :
    rest.foldl pickMin p ∈ p :: rest := by
  induction rest generalizing p with
  | nil => simp
  | cons r rs ih =>
      simp only [List.foldl_cons]
      have h := ih (pickMin p r)
      have hpr : pickMin p r = p ∨ pickMin p r = r := by
        unfold pickMin
        by_cases h : r.2 < p.2 <;> simp [h]
      rcases List.mem_cons.mp h with h1 | h1
      · rcases hpr with h2 | h2 <;> rw [h1, h2] <;> simp
      · simp [h1]

theorem foldl_pickMin_le (rest : Bal) (p : String × ℚ) :
    ∀ q ∈ p :: rest, (rest.foldl pickMin p).2 ≤ q.2 := by
  induction rest generalizing p with
  | nil => simp
  | cons r rs ih =>
      intro q hq
      simp only [List.foldl_cons]
      have hstep : ∀ x ∈ pickMin p r :: rs, ((rs.foldl pickMin (pickMin p r)).2) ≤ x.2 :=
        ih (pickMin p r)
      have hp : (pickMin p r).2 ≤ p.2 := by
        unfold pickMin
        by_cases h : r.2 < p.2 <;> simp [h] <;> linarith
      have hr : (pickMin p r).2 ≤ r.2 := by
        unfold pickMin
        by_cases h : r.2 < p.2 <;> simp [h] <;> linarith
      have htop : (rs.foldl pickMin (pickMin p r)).2 ≤ (pickMin p r).2 :=
        hstep _ (by simp)
      rcases List.mem_cons.mp hq with h | h
      · rw [h]; linarith
      · rcases List.mem_cons.mp h with h1 | h1
        · rw [h1]; linarith
        · exact hstep q (by simp [h1])

theorem maxBy_mem {b : Bal} {p : String × ℚ} (h : maxBy b = some p) : p ∈ b := by
  cases b with
  | nil => simp [maxBy] at h
  | cons q rest =>
      simp [maxBy] at h
      rw [← h]
      exact foldl_pickMax_mem rest q

theorem maxBy_ge {b : Bal} {p : String × ℚ} (h : maxBy b = some p) :
    ∀ q ∈ b, q.2 ≤ p.2 := by
  cases b with
  | nil => simp [maxBy] at h
  | cons q rest =>
      simp [maxBy] at h
      rw [← h]
      exact foldl_pickMax_ge rest q

theorem minBy_mem {b : Bal} {p : String × ℚ} (h : minBy b = some p) : p ∈ b := by
  cases b with
  | nil => simp [minBy] at h
  | cons q rest =>
      simp [minBy] at h
      rw [← h]
      exact foldl_pickMin_mem rest q

theorem minBy_le {b : Bal} {p : String × ℚ} (h : minBy b = some p) :
    ∀ q ∈ b, p.2 ≤ q.2 := by
  cases b with
  | nil => simp [minBy] at h
  | cons q rest =>
      simp [minBy] at h
      rw [← h]
      exact foldl_pickMin_le rest q

theorem maxBy_eq_none_iff {b : Bal} : maxBy b = none ↔ b = [] := by
  cases b <;> simp [maxBy]

theorem minBy_eq_none_iff {b : Bal} : minBy b = none ↔ b = [] := by
  cases b <;> simp [minBy]

/-! ### Facts about one iteration of the settlement loop -/

theorem settleStep_inv {c d : Bal} {s : Settlement} {c1 d1 : Bal}
    (h : settleStep c d = some (s, c1, d1)) :
    ∃ cn cv dn dv, maxBy c = some (cn, cv) ∧ minBy d = some (dn, dv) ∧
      s = ⟨dn, cn, min cv (-dv)⟩ ∧
      c1 = (if |cv - min cv (-dv)| < eps
              then eraseKey (setVal c cn (cv - min cv (-dv))) cn
              else setVal c cn (cv - min cv (-dv))) ∧
      d1 = (if |dv + min cv (-dv)| < eps
              then eraseKey (setVal d dn (dv + min cv (-dv))) dn
              else setVal d dn (dv + min cv (-dv))) := by
  cases hc : maxBy c with
  | none => unfold settleStep at h; rw [hc] at h; simp at h
  | some p =>
      cases hd : minBy d with
      | none =>
          obtain ⟨cn, cv⟩ := p
          unfold settleStep at h; rw [hc, hd] at h; simp at h
      | some q =>
          obtain ⟨cn, cv⟩ := p
          obtain ⟨dn, dv⟩ := q
          unfold settleStep at h
          rw [hc, hd] at h
          simp only [Option.some.injEq, Prod.mk.injEq] at h
          exact ⟨cn, cv, dn, dv, rfl, rfl, h.1.symm, h.2.1.symm, h.2.2.symm⟩

theorem settleStep_eq_none_iff {c d : Bal} :
    settleStep c d = none ↔ c = [] ∨ d = [] := by
  constructor
  · intro h
    by_contra hcon
    push_neg at hcon
    obtain ⟨hc, hd⟩ := hcon
    cases hcmax : maxBy c with
    | none => exact hc (maxBy_eq_none_iff.mp hcmax)
    | some p =>
        cases hdmin : minBy d with
        | none => exact hd (minBy_eq_none_iff.mp hdmin)
        | some q =>
            obtain ⟨cn, cv⟩ := p
            obtain ⟨dn, dv⟩ := q
            unfold settleStep at h
            rw [hcmax, hdmin] at h
            simp at h
  · intro h
    rcases h with h | h
    · subst h
      unfold settleStep
      simp [maxBy]
    · subst h
      cases hcmax : maxBy c with
      | none => unfold settleStep; rw [hcmax]
      | some p => obtain ⟨cn, cv⟩ := p; unfold settleStep; rw [hcmax]; simp [minBy]

theorem settleStep_basic {c d : Bal} {s : Settlement} {c1 d1 : Bal}
    (h : settleStep c d = some (s, c1, d1)) :
    c1.length + d1.length + 1 ≤ c.length + d.length ∧
    keys c1 ⊆ keys c ∧ keys d1 ⊆ keys d ∧
    s.from_ ∈ keys d ∧ s.to_ ∈ keys c := by
  obtain ⟨cn, cv, dn, dv, hc, hd, hs, hc1, hd1⟩ := settleStep_inv h
  have hcm : (cn, cv) ∈ c := maxBy_mem hc
  have hdm : (dn, dv) ∈ d := minBy_mem hd
  have hck : cn ∈ keys c := mem_keys_iff.mpr ⟨cv, hcm⟩
  have hdk : dn ∈ keys d := mem_keys_iff.mpr ⟨dv, hdm⟩
  set a := min cv (-dv) with ha
  have hkc1 : keys c1 ⊆ keys c := by
    rw [hc1]
    split
    · intro x hx
      have h1 := keys_eraseKey_subset (setVal c cn (cv - a)) cn hx
      rwa [keys_setVal] at h1
    · rw [keys_setVal]
      exact fun _ hx => hx
  have hkd1 : keys d1 ⊆ keys d := by
    rw [hd1]
    split
    · intro x hx
      have h1 := keys_eraseKey_subset (setVal d dn (dv + a)) dn hx
      rwa [keys_setVal] at h1
    · rw [keys_setVal]
      exact fun _ hx => hx
  have hlc1 : c1.length ≤ c.length := by
    rw [hc1]
    split
    · calc (eraseKey (setVal c cn (cv - a)) cn).length
          ≤ (setVal c cn (cv - a)).length := length_eraseKey_le _ _
        _ = c.length := length_setVal _ _ _
    · exact le_of_eq (length_setVal _ _ _)
  have hld1 : d1.length ≤ d.length := by
    rw [hd1]
    split
    · calc (eraseKey (setVal d dn (dv + a)) dn).length
          ≤ (setVal d dn (dv + a)).length := length_eraseKey_le _ _
        _ = d.length := length_setVal _ _ _
    · exact le_of_eq (length_setVal _ _ _)
  have hdec : c1.length + d1.length + 1 ≤ c.length + d.length := by
    rcases min_choice cv (-dv) with hmin | hmin
    · have hzero : |cv - a| < eps := by
        rw [ha, hmin]
        simpa using eps_pos
      have : c1 = eraseKey c cn := by
        rw [hc1, if_pos hzero, eraseKey_setVal]
      have hlt : c1.length < c.length := by
        rw [this]
        exact length_eraseKey_lt hck
      omega
    · have hzero : |dv + a| < eps := by
        rw [ha, hmin]
        simpa using eps_pos
      have : d1 = eraseKey d dn := by
        rw [hd1, if_pos hzero, eraseKey_setVal]
      have hlt : d1.length < d.length := by
        rw [this]
        exact length_eraseKey_lt hdk
      omega
  refine ⟨hdec, hkc1, hkd1, ?_, ?_⟩
  · rw [hs]; exact hdk
  · rw [hs]; exact hck

theorem settleStep_signs {c d : Bal} {s : Settlement} {c1 d1 : Bal}
    (hC : ∀ q ∈ c, eps ≤ q.2) (hD : ∀ q ∈ d, q.2 ≤ -eps)
    (h : settleStep c d = some (s, c1, d1)) :
    (∀ q ∈ c1, eps ≤ q.2) ∧ (∀ q ∈ d1, q.2 ≤ -eps) ∧ eps ≤ s.amount := by
  obtain ⟨cn, cv, dn, dv, hc, hd, hs, hc1, hd1⟩ := settleStep_inv h
  have hcm : (cn, cv) ∈ c := maxBy_mem hc
  have hdm : (dn, dv) ∈ d := minBy_mem hd
  have hcv : eps ≤ cv := hC _ hcm
  have hdv : dv ≤ -eps := hD _ hdm
  set a := min cv (-dv) with ha
  have hae : eps ≤ a := le_min hcv (by linarith)
  have hca : 0 ≤ cv - a := by
    have := min_le_left cv (-dv)
    rw [← ha] at this
    linarith
  have hda : dv + a ≤ 0 := by
    have := min_le_right cv (-dv)
    rw [← ha] at this
    linarith
  refine ⟨?_, ?_, by rw [hs]; exact hae⟩
  · intro q hq
    rw [hc1] at hq
    split at hq
    · have h1 : q ∈ eraseKey c cn := by rwa [eraseKey_setVal] at hq
      exact hC _ (mem_of_mem_eraseKey h1)
    · rename_i hkept
      rcases mem_setVal_cases hq with h1 | h1
      · have habs : eps ≤ |cv - a| := le_of_not_lt hkept
        rw [abs_of_nonneg hca] at habs
        rw [h1]
        exact habs
      · exact hC _ h1
  · intro q hq
    rw [hd1] at hq
    split at hq
    · have h1 : q ∈ eraseKey d dn := by rwa [eraseKey_setVal] at hq
      exact hD _ (mem_of_mem_eraseKey h1)
    · rename_i hkept
      rcases mem_setVal_cases hq with h1 | h1
      · have habs : eps ≤ |dv + a| := le_of_not_lt hkept
        rw [abs_of_nonpos hda] at habs
        rw [h1]
        simp only
        linarith
      · exact hD _ h1

theorem settleStep_absSum {c d : Bal} {s : Settlement} {c1 d1 : Bal}
    (hC : ∀ q ∈ c, eps ≤ q.2) (hD : ∀ q ∈ d, q.2 ≤ -eps)
    (hcn : KeysNodup c) (hdn : KeysNodup d)
    (h : settleStep c d = some (s, c1, d1)) :
    absSum c1 + absSum d1 + 2 * s.amount ≤ absSum c + absSum d := by
  obtain ⟨cn, cv, dn, dv, hc, hd, hs, hc1, hd1⟩ := settleStep_inv h
  have hcm : (cn, cv) ∈ c := maxBy_mem hc
  have hdm : (dn, dv) ∈ d := minBy_mem hd
  have hcv : eps ≤ cv := hC _ hcm
  have hdv : dv ≤ -eps := hD _ hdm
  set a := min cv (-dv) with ha
  have hca : 0 ≤ cv - a := by
    have := min_le_left cv (-dv)
    rw [← ha] at this
    linarith
  have hda : dv + a ≤ 0 := by
    have := min_le_right cv (-dv)
    rw [← ha] at this
    linarith
  have hcset : absSum (setVal c cn (cv - a)) = absSum c - a := by
    rw [absSum_setVal (cv - a) hcn hcm, abs_of_nonneg hca,
      abs_of_nonneg (by linarith [eps_pos] : (0:ℚ) ≤ cv)]
    ring
  have hdset : absSum (setVal d dn (dv + a)) = absSum d - a := by
    rw [absSum_setVal (dv + a) hdn hdm, abs_of_nonpos hda,
      abs_of_nonpos (by linarith [eps_pos] : dv ≤ 0)]
    ring
  have hcb : absSum c1 ≤ absSum c - a := by
    rw [hc1]
    split
    · calc absSum (eraseKey (setVal c cn (cv - a)) cn)
          ≤ absSum (setVal c cn (cv - a)) := absSum_eraseKey_le _ _
        _ = absSum c - a := hcset
    · exact le_of_eq hcset
  have hdb : absSum d1 ≤ absSum d - a := by
    rw [hd1]
    split
    · calc absSum (eraseKey (setVal d dn (dv + a)) dn)
          ≤ absSum (setVal d dn (dv + a)) := absSum_eraseKey_le _ _
        _ = absSum d - a := hdset
    · exact le_of_eq hdset
  have hsa : s.amount = a := by rw [hs]
  rw [hsa]
  linarith

/-! ### Facts about the whole settlement loop -/

theorem settleLoop_succ (fuel : Nat) (c d : Bal) :
    settleLoop (fuel + 1) c d =
      match settleStep c d with
      | none => []
      | some (s, c1, d1) => s :: settleLoop fuel c1 d1 := rfl

theorem settleLoop_of_none {fuel : Nat} {c d : Bal} (h : settleStep c d = none) :
    settleLoop fuel c d = [] := by
  cases fuel with
  | zero => rfl
  | succ n => rw [settleLoop_succ, h]

theorem settleLoop_nil_left (fuel : Nat) (d : Bal) : settleLoop fuel [] d = [] :=
  settleLoop_of_none (settleStep_eq_none_iff.mpr (Or.inl rfl))

theorem settleLoop_nil_right (fuel : Nat) (c : Bal) : settleLoop fuel c [] = [] :=
  settleLoop_of_none (settleStep_eq_none_iff.mpr (Or.inr rfl))

theorem settleLoop_fuel_indep :
    ∀ f1 f2 : Nat, ∀ c d : Bal, c.length + d.length ≤ f1 → c.length + d.length ≤ f2 →
      settleLoop f1 c d = settleLoop f2 c d := by
  intro f1
  induction f1 with
  | zero =>
      intro f2 c d h1 h2
      have hc : c = [] := by
        cases c with
        | nil => rfl
        | cons p rest => simp at h1
      subst hc
      rw [settleLoop_nil_left, settleLoop_nil_left]
  | succ a ih =>
      intro f2 c d h1 h2
      cases f2 with
      | zero =>
          have hc : c = [] := by
            cases c with
            | nil => rfl
            | cons p rest => simp at h2
          subst hc
          rw [settleLoop_nil_left, settleLoop_nil_left]
      | succ b =>
          cases hs : settleStep c d with
          | none => rw [settleLoop_of_none hs, settleLoop_of_none hs]
          | some triple =>
              obtain ⟨s, c1, d1⟩ := triple
              have hdec := (settleStep_basic hs).1
              rw [settleLoop_succ, settleLoop_succ, hs]
              simp only
              rw [ih b c1 d1 (by omega) (by omega)]

theorem settleLoop_length :
    ∀ (fuel : Nat) (c d : Bal), c ≠ [] → d ≠ [] →
      (settleLoop fuel c d).length + 1 ≤ c.length + d.length := by
  intro fuel
  induction fuel with
  | zero =>
      intro c d hc hd
      have : 1 ≤ c.length := List.length_pos.mpr hc
      have : 1 ≤ d.length := List.length_pos.mpr hd
      simp [settleLoop]
      omega
  | succ n ih =>
      intro c d hc hd
      cases hs : settleStep c d with
      | none =>
          rw [settleLoop_of_none hs]
          have : 1 ≤ c.length := List.length_pos.mpr hc
          have : 1 ≤ d.length := List.length_pos.mpr hd
          simp
          omega
      | some triple =>
          obtain ⟨s, c1, d1⟩ := triple
          have hdec := (settleStep_basic hs).1
          rw [settleLoop_succ, hs]
          simp only [List.length_cons]
          by_cases hc1 : c1 = []
          · subst hc1
            rw [settleLoop_nil_left]
            have : 1 ≤ c.length := List.length_pos.mpr hc
            have : 1 ≤ d.length := List.length_pos.mpr hd
            simp
            omega
          · by_cases hd1 : d1 = []
            · subst hd1
              rw [settleLoop_nil_right]
              have : 1 ≤ c.length := List.length_pos.mpr hc
              have : 1 ≤ d.length := List.length_pos.mpr hd
              simp
              omega
            · have := ih c1 d1 hc1 hd1
              omega

theorem settleLoop_from_to :
    ∀ (fuel : Nat) (c d : Bal), ∀ s ∈ settleLoop fuel c d,
      s.from_ ∈ keys d ∧ s.to_ ∈ keys c := by
  intro fuel
  induction fuel with
  | zero => intro c d s hs; simp [settleLoop] at hs
  | succ n ih =>
      intro c d s hs
      cases hstep : settleStep c d with
      | none => rw [settleLoop_of_none hstep] at hs; simp at hs
      | some triple =>
          obtain ⟨s0, c1, d1⟩ := triple
          obtain ⟨_, hkc, hkd, hfrom, hto⟩ := settleStep_basic hstep
          rw [settleLoop_succ, hstep] at hs
          simp only at hs
          rcases List.mem_cons.mp hs with h | h
          · subst h; exact ⟨hfrom, hto⟩
          · obtain ⟨h1, h2⟩ := ih c1 d1 s h
            exact ⟨hkd h1, hkc h2⟩

theorem settleLoop_amount_pos :
    ∀ (fuel : Nat) (c d : Bal), (∀ q ∈ c, eps ≤ q.2) → (∀ q ∈ d, q.2 ≤ -eps) →
      ∀ s ∈ settleLoop fuel c d, eps ≤ s.amount := by
  intro fuel
  induction fuel with
  | zero => intro c d _ _ s hs; simp [settleLoop] at hs
  | succ n ih =>
      intro c d hC hD s hs
      cases hstep : settleStep c d with
      | none => rw [settleLoop_of_none hstep] at hs; simp at hs
      | some triple =>
          obtain ⟨s0, c1, d1⟩ := triple
          obtain ⟨hC1, hD1, hpos⟩ := settleStep_signs hC hD hstep
          rw [settleLoop_succ, hstep] at hs
          simp only at hs
          rcases List.mem_cons.mp hs with h | h
          · subst h; exact hpos
          · exact ih c1 d1 hC1 hD1 s h

/-! ### The net effect of a settlement list on a participant -/

theorem delta_nil (p : String) : delta p [] = 0 := rfl

theorem delta_cons (p : String) (s : Settlement) (S : List Settlement) :
    delta p (s :: S) =
      ((if s.from_ = p then s.amount else 0) - (if s.to_ = p then s.amount else 0))
      + delta p S := by
  simp [delta]

theorem delta_not_mentioned {p : String} {S : List Settlement}
    (h : ∀ s ∈ S, s.from_ ≠ p ∧ s.to_ ≠ p) : delta p S = 0 := by
  induction S with
  | nil => rfl
  | cons s rest ih =>
      obtain ⟨h1, h2⟩ := h s (by simp)
      rw [delta_cons, if_neg h1, if_neg h2, ih (fun r hr => h r (by simp [hr]))]
      ring

theorem mem_keys_of_mem {b : Bal} {q : String × ℚ} (h : q ∈ b) : q.1 ∈ keys b :=
  mem_keys_iff.mpr ⟨q.2, by rwa [Prod.mk.eta]⟩

theorem settleStep_nodup {c d : Bal} {s : Settlement} {c1 d1 : Bal}
    (hcn : KeysNodup c) (hdn : KeysNodup d)
    (h : settleStep c d = some (s, c1, d1)) :
    KeysNodup c1 ∧ KeysNodup d1 := by
  obtain ⟨cn, cv, dn, dv, hc, hd, hs, hc1, hd1⟩ := settleStep_inv h
  constructor
  · rw [hc1]
    split
    · exact keysNodup_eraseKey (keysNodup_setVal hcn)
    · exact keysNodup_setVal hcn
  · rw [hd1]
    split
    · exact keysNodup_eraseKey (keysNodup_setVal hdn)
    · exact keysNodup_setVal hdn

/-- Master accounting lemma for the settlement loop: every creditor's
adjusted balance moves down toward zero without crossing it, every
debtor's moves up toward zero without crossing it, and at completion at
least one of the two sides is entirely within `eps` of zero. -/
theorem settleLoop_adjusted :
    ∀ (fuel : Nat) (c d : Bal),
      (∀ q ∈ c, eps ≤ q.2) → (∀ q ∈ d, q.2 ≤ -eps) →
      KeysNodup c → KeysNodup d →
      (∀ x ∈ keys c, x ∉ keys d) →
      c.length + d.length ≤ fuel →
      (∀ q ∈ c, 0 ≤ q.2 + delta q.1 (settleLoop fuel c d) ∧
                q.2 + delta q.1 (settleLoop fuel c d) ≤ q.2) ∧
      (∀ q ∈ d, q.2 ≤ q.2 + delta q.1 (settleLoop fuel c d) ∧
                q.2 + delta q.1 (settleLoop fuel c d) ≤ 0) ∧
      ((∀ q ∈ c, q.2 + delta q.1 (settleLoop fuel c d) ≤ eps) ∨
       (∀ q ∈ d, -eps ≤ q.2 + delta q.1 (settleLoop fuel c d))) := by
  intro fuel
  induction fuel with
  | zero =>
      intro c d hC hD _ _ _ hfuel
      have hc : c = [] := by cases c with
        | nil => rfl
        | cons p rest => simp at hfuel
      subst hc
      refine ⟨by simp, ?_, Or.inl (by simp)⟩
      intro q hq
      rw [settleLoop_nil_left, delta_nil]
      have := hD q hq
      have := eps_pos
      constructor <;> linarith
  | succ n ih =>
      intro c d hC hD hcn hdn hdisj hfuel
      cases hstep : settleStep c d with
      | none =>
          rw [settleLoop_of_none hstep]
          refine ⟨?_, ?_, ?_⟩
          · intro q hq
            rw [delta_nil]
            have := hC q hq
            have := eps_pos
            constructor <;> linarith
          · intro q hq
            rw [delta_nil]
            have := hD q hq
            have := eps_pos
            constructor <;> linarith
          · rcases settleStep_eq_none_iff.mp hstep with h | h
            · subst h
              exact Or.inl (by simp)
            · subst h
              exact Or.inr (by simp)
      | some triple =>
          obtain ⟨s0, c1, d1⟩ := triple
          obtain ⟨cn, cv, dn, dv, hc, hd, hs, hc1, hd1⟩ := settleStep_inv hstep
          subst hs
          set a := min cv (-dv) with ha
          have hcm : (cn, cv) ∈ c := maxBy_mem hc
          have hdm : (dn, dv) ∈ d := minBy_mem hd
          have hcv : eps ≤ cv := hC _ hcm
          have hdv : dv ≤ -eps := hD _ hdm
          have hae : eps ≤ a := le_min hcv (by linarith)
          have hca : 0 ≤ cv - a := by
            have := min_le_left cv (-dv)
            rw [← ha] at this
            linarith
          have hda : dv + a ≤ 0 := by
            have := min_le_right cv (-dv)
            rw [← ha] at this
            linarith
          have hck : cn ∈ keys c := mem_keys_iff.mpr ⟨cv, hcm⟩
          have hdk : dn ∈ keys d := mem_keys_iff.mpr ⟨dv, hdm⟩
          obtain ⟨hC1, hD1, _⟩ := settleStep_signs hC hD hstep
          obtain ⟨hnod1, hnod2⟩ := settleStep_nodup hcn hdn hstep
          obtain ⟨hdec, hkc1, hkd1, _, _⟩ := settleStep_basic hstep
          have hdisj1 : ∀ x ∈ keys c1, x ∉ keys d1 :=
            fun x hx hxd => hdisj x (hkc1 hx) (hkd1 hxd)
          have hfuel1 : c1.length + d1.length ≤ n := by omega
          obtain ⟨IH1, IH2, IH3⟩ := ih c1 d1 hC1 hD1 hnod1 hnod2 hdisj1 hfuel1
          have hloop : settleLoop (n + 1) c d =
              (⟨dn, cn, a⟩ : Settlement) :: settleLoop n c1 d1 := by
            rw [settleLoop_succ, hstep]
          rw [hloop]
          set S' := settleLoop n c1 d1 with hS'
          -- effect of the head settlement on an entry of c
          have hdelta_c : ∀ q : String × ℚ, q ∈ c →
              delta q.1 ((⟨dn, cn, a⟩ : Settlement) :: S') =
                (if cn = q.1 then -a else 0) + delta q.1 S' := by
            intro q hq
            have hqd : q.1 ≠ dn := by
              intro he
              exact hdisj q.1 (mem_keys_of_mem hq) (he ▸ hdk)
            rw [delta_cons]
            dsimp only
            have hne : ¬ (dn = q.1) := fun he => hqd he.symm
            by_cases hqc : cn = q.1
            · simp only [hne, if_false, if_pos hqc]
              ring
            · simp only [hne, if_false, if_neg hqc]
              ring
          have hdelta_d : ∀ q : String × ℚ, q ∈ d →
              delta q.1 ((⟨dn, cn, a⟩ : Settlement) :: S') =
                (if dn = q.1 then a else 0) + delta q.1 S' := by
            intro q hq
            have hqc : q.1 ≠ cn := by
              intro he
              exact hdisj cn hck (he ▸ mem_keys_of_mem hq)
            rw [delta_cons]
            dsimp only
            have hne : ¬ (cn = q.1) := fun he => hqc he.symm
            by_cases hqd : dn = q.1
            · simp only [hne, if_false, if_pos hqd]
              ring
            · simp only [hne, if_false, if_neg hqd]
              ring
          -- the two possible fates of the selected creditor entry
          have hcn_case :
              (¬ |cv - a| < eps ∧ (cn, cv - a) ∈ c1) ∨
              (|cv - a| < eps ∧ delta cn S' = 0) := by
            by_cases hkept : |cv - a| < eps
            · refine Or.inr ⟨hkept, ?_⟩
              have hc1e : c1 = eraseKey c cn := by
                rw [hc1, if_pos hkept, eraseKey_setVal]
              have hnotc1 : cn ∉ keys c1 := by
                rw [hc1e]
                exact not_mem_keys_eraseKey hcn
              have hnotd1 : cn ∉ keys d1 := fun hmem => hdisj cn hck (hkd1 hmem)
              refine delta_not_mentioned ?_
              intro s hsS
              obtain ⟨hf, ht⟩ := settleLoop_from_to n c1 d1 s hsS
              exact ⟨fun he => hnotd1 (he ▸ hf), fun he => hnotc1 (he ▸ ht)⟩
            · refine Or.inl ⟨hkept, ?_⟩
              have hc1e : c1 = setVal c cn (cv - a) := by
                rw [hc1, if_neg hkept]
              rw [hc1e]
              exact mem_setVal_self _ hck
          have hdn_case :
              (¬ |dv + a| < eps ∧ (dn, dv + a) ∈ d1) ∨
              (|dv + a| < eps ∧ delta dn S' = 0) := by
            by_cases hkept : |dv + a| < eps
            · refine Or.inr ⟨hkept, ?_⟩
              have hd1e : d1 = eraseKey d dn := by
                rw [hd1, if_pos hkept, eraseKey_setVal]
              have hnotd1 : dn ∉ keys d1 := by
                rw [hd1e]
                exact not_mem_keys_eraseKey hdn
              have hnotc1 : dn ∉ keys c1 := fun hmem =>
                hdisj dn (hkc1 hmem) hdk
              refine delta_not_mentioned ?_
              intro s hsS
              obtain ⟨hf, ht⟩ := settleLoop_from_to n c1 d1 s hsS
              exact ⟨fun he => hnotd1 (he ▸ hf), fun he => hnotc1 (he ▸ ht)⟩
            · refine Or.inl ⟨hkept, ?_⟩
              have hd1e : d1 = setVal d dn (dv + a) := by
                rw [hd1, if_neg hkept]
              rw [hd1e]
              exact mem_setVal_self _ hdk
          -- membership transfer for untouched entries
          have hmem_c1 : ∀ q : String × ℚ, q ∈ c → q.1 ≠ cn → q ∈ c1 := by
            intro q hq hne
            rw [hc1]
            split
            · rw [eraseKey_setVal]
              exact mem_eraseKey_of_ne hq hne
            · exact mem_setVal_of_ne hq hne
          have hmem_d1 : ∀ q : String × ℚ, q ∈ d → q.1 ≠ dn → q ∈ d1 := by
            intro q hq hne
            rw [hd1]
            split
            · rw [eraseKey_setVal]
              exact mem_eraseKey_of_ne hq hne
            · exact mem_setVal_of_ne hq hne
          refine ⟨?_, ?_, ?_⟩
          · -- creditors stay in [0, original]
            intro q hq
            rw [hdelta_c q hq]
            by_cases hqc : cn = q.1
            · have hqv : q.2 = cv := by
                refine keysNodup_value_unique hcn ?_ hcm
                rw [hqc, Prod.mk.eta]
                exact hq
              rw [if_pos hqc, ← hqc, hqv]
              rcases hcn_case with ⟨_, hmem⟩ | ⟨hsmall, hzero⟩
              · obtain ⟨hlow, hhigh⟩ := IH1 _ hmem
                dsimp only at hlow hhigh
                constructor <;> linarith [eps_pos]
              · rw [hzero]
                rw [abs_sub_lt_iff] at hsmall
                constructor <;> linarith [eps_pos]
            · rw [if_neg hqc]
              obtain ⟨hlow, hhigh⟩ := IH1 q (hmem_c1 q hq (fun he => hqc he.symm))
              constructor <;> linarith
          · -- debtors stay in [original, 0]
            intro q hq
            rw [hdelta_d q hq]
            by_cases hqd : dn = q.1
            · have hqv : q.2 = dv := by
                refine keysNodup_value_unique hdn ?_ hdm
                rw [hqd, Prod.mk.eta]
                exact hq
              rw [if_pos hqd, ← hqd, hqv]
              rcases hdn_case with ⟨_, hmem⟩ | ⟨hsmall, hzero⟩
              · obtain ⟨hlow, hhigh⟩ := IH2 _ hmem
                dsimp only at hlow hhigh
                constructor <;> linarith [eps_pos]
              · rw [hzero]
                rw [abs_lt] at hsmall
                constructor <;> linarith [eps_pos]
            · rw [if_neg hqd]
              obtain ⟨hlow, hhigh⟩ := IH2 q (hmem_d1 q hq (fun he => hqd he.symm))
              constructor <;> linarith
          · -- one side fully settles
            rcases IH3 with hleft | hright
            · refine Or.inl ?_
              intro q hq
              rw [hdelta_c q hq]
              by_cases hqc : cn = q.1
              · have hqv : q.2 = cv := by
                  refine keysNodup_value_unique hcn ?_ hcm
                  rw [hqc, Prod.mk.eta]
                  exact hq
                rw [if_pos hqc, ← hqc, hqv]
                rcases hcn_case with ⟨_, hmem⟩ | ⟨hsmall, hzero⟩
                · have := hleft _ hmem
                  dsimp only at this
                  linarith
                · rw [hzero]
                  rw [abs_sub_lt_iff] at hsmall
                  linarith
              · rw [if_neg hqc]
                have := hleft q (hmem_c1 q hq (fun he => hqc he.symm))
                linarith
            · refine Or.inr ?_
              intro q hq
              rw [hdelta_d q hq]
              by_cases hqd : dn = q.1
              · have hqv : q.2 = dv := by
                  refine keysNodup_value_unique hdn ?_ hdm
                  rw [hqd, Prod.mk.eta]
                  exact hq
                rw [if_pos hqd, ← hqd, hqv]
                rcases hdn_case with ⟨_, hmem⟩ | ⟨hsmall, hzero⟩
                · have := hright _ hmem
                  dsimp only at this
                  linarith
                · rw [hzero]
                  rw [abs_lt] at hsmall
                  linarith
              · rw [if_neg hqd]
                have := hright q (hmem_d1 q hq (fun he => hqd he.symm))
                linarith

/-! ### Summation helpers -/

theorem sum_map_add (f g : (String × ℚ) → ℚ) (l : Bal) :
    (l.map (fun q => f q + g q)).sum = (l.map f).sum + (l.map g).sum := by
  induction l with
  | nil => simp
  | cons q rest ih => simp [ih]; ring

theorem sum_map_neg (f : (String × ℚ) → ℚ) (l : Bal) :
    (l.map (fun q => -(f q))).sum = -((l.map f).sum) := by
  induction l with
  | nil => simp
  | cons q rest ih =>
      simp only [List.map_cons, List.sum_cons, ih]
      ring

theorem sum_ite_eq_of_not_mem {b : Bal} {k : String} (x : ℚ) (hk : k ∉ keys b) :
    (b.map (fun q => if k = q.1 then x else 0)).sum = 0 := by
  induction b with
  | nil => simp
  | cons q rest ih =>
      have h1 : k ≠ q.1 := by
        intro he
        exact hk (by rw [he]; exact mem_keys_of_mem (by simp))
      have h2 : k ∉ keys rest := fun hm => hk (by
        rcases mem_keys_iff.mp hm with ⟨v, hv⟩
        exact mem_keys_iff.mpr ⟨v, by simp [hv]⟩)
      simp [h1, ih h2]

theorem sum_ite_eq_of_mem {b : Bal} {k : String} (x : ℚ)
    (hnd : KeysNodup b) (hk : k ∈ keys b) :
    (b.map (fun q => if k = q.1 then x else 0)).sum = x := by
  induction b with
  | nil => simp [keys] at hk
  | cons q rest ih =>
      obtain ⟨k0, v0⟩ := q
      obtain ⟨hnm, hnd1⟩ := keysNodup_cons hnd
      by_cases h1 : k = k0
      · subst h1
        simp [sum_ite_eq_of_not_mem x hnm]
      · have hk1 : k ∈ keys rest := by
          rcases mem_keys_iff.mp hk with ⟨v, hv⟩
          rcases List.mem_cons.mp hv with he | he
          · exact absurd (congrArg Prod.fst he) h1
          · exact mem_keys_iff.mpr ⟨v, he⟩
        simp [h1, ih hnd1 hk1]

theorem delta_sum_zero {b : Bal} {S : List Settlement} (hnd : KeysNodup b)
    (hS : ∀ s ∈ S, s.from_ ∈ keys b ∧ s.to_ ∈ keys b) :
    (b.map (fun q => delta q.1 S)).sum = 0 := by
  induction S with
  | nil => simp [delta]
  | cons s rest ih =>
      have hfun : (fun q : String × ℚ => delta q.1 (s :: rest)) =
          (fun q : String × ℚ => (if s.from_ = q.1 then s.amount else 0)
            + (-(if s.to_ = q.1 then s.amount else 0) + delta q.1 rest)) := by
        funext q
        rw [delta_cons]
        ring
      have h1 := sum_map_add (fun q : String × ℚ => if s.from_ = q.1 then s.amount else 0)
        (fun q : String × ℚ => -(if s.to_ = q.1 then s.amount else 0) + delta q.1 rest) b
      have h2 := sum_map_add (fun q : String × ℚ => -(if s.to_ = q.1 then s.amount else 0))
        (fun q : String × ℚ => delta q.1 rest) b
      have h3 := sum_map_neg (fun q : String × ℚ => if s.to_ = q.1 then s.amount else 0) b
      obtain ⟨hf, ht⟩ := hS s (by simp)
      rw [hfun, h1, h2, h3, sum_ite_eq_of_mem _ hnd hf, sum_ite_eq_of_mem _ hnd ht,
        ih (fun r hr => hS r (by simp [hr]))]
      ring

theorem three_way_sum (f : (String × ℚ) → ℚ) (b : Bal) :
    (b.map f).sum = ((creditorsOf b).map f).sum + ((debtorsOf b).map f).sum
      + ((othersOf b).map f).sum := by
  induction b with
  | nil => simp [creditorsOf, debtorsOf, othersOf]
  | cons q rest ih =>
      have htri : (q.2 > eps ∧ ¬(q.2 < -eps) ∧ ¬(|q.2| ≤ eps)) ∨
          (¬(q.2 > eps) ∧ q.2 < -eps ∧ ¬(|q.2| ≤ eps)) ∨
          (¬(q.2 > eps) ∧ ¬(q.2 < -eps) ∧ |q.2| ≤ eps) := by
        by_cases h1 : q.2 > eps
        · refine Or.inl ⟨h1, ?_, ?_⟩
          · linarith [eps_pos]
          · rw [abs_le]
            push_neg
            intro
            linarith
        · by_cases h2 : q.2 < -eps
          · refine Or.inr (Or.inl ⟨h1, h2, ?_⟩)
            rw [abs_le]
            push_neg
            intro h
            linarith
          · refine Or.inr (Or.inr ⟨h1, h2, ?_⟩)
            rw [abs_le]
            push_neg at h1 h2
            constructor <;> linarith
      rcases htri with ⟨h1, h2, h3⟩ | ⟨h1, h2, h3⟩ | ⟨h1, h2, h3⟩ <;>
        simp only [creditorsOf, debtorsOf, othersOf, List.filter_cons] at ih ⊢ <;>
        simp [h1, h2, h3, ih] <;> ring

theorem three_way_length (b : Bal) :
    (creditorsOf b).length + (debtorsOf b).length + (othersOf b).length = b.length := by
  have h := three_way_sum (fun _ => (1 : ℚ)) b
  simp only [List.map_const, List.sum_replicate, smul_eq_mul, mul_one] at h
  have hcast : ((creditorsOf b).length : ℚ) + ((debtorsOf b).length : ℚ)
      + ((othersOf b).length : ℚ) = (b.length : ℚ) := by
    simpa using h.symm
  exact_mod_cast hcast

theorem nonzeroCount_eq (b : Bal) :
    nonzeroCount b = (creditorsOf b).length + (debtorsOf b).length := by
  induction b with
  | nil => simp [nonzeroCount, creditorsOf, debtorsOf]
  | cons q rest ih =>
      have htri : (q.2 > eps ∧ ¬(q.2 < -eps) ∧ eps < |q.2|) ∨
          (¬(q.2 > eps) ∧ q.2 < -eps ∧ eps < |q.2|) ∨
          (¬(q.2 > eps) ∧ ¬(q.2 < -eps) ∧ ¬(eps < |q.2|)) := by
        by_cases h1 : q.2 > eps
        · refine Or.inl ⟨h1, by linarith [eps_pos], ?_⟩
          rw [abs_of_pos (by linarith [eps_pos])]
          exact h1
        · by_cases h2 : q.2 < -eps
          · refine Or.inr (Or.inl ⟨h1, h2, ?_⟩)
            rw [abs_of_neg (by linarith [eps_pos])]
            linarith
          · refine Or.inr (Or.inr ⟨h1, h2, ?_⟩)
            push_neg at h1 h2 ⊢
            rw [abs_le]
            constructor <;> linarith
      rcases htri with ⟨h1, h2, h3⟩ | ⟨h1, h2, h3⟩ | ⟨h1, h2, h3⟩ <;>
        simp only [nonzeroCount, creditorsOf, debtorsOf, List.filter_cons] at ih ⊢ <;>
        simp [h1, h2, h3, ih] <;> omega

theorem sum_le_len_mul {l : Bal} {f : (String × ℚ) → ℚ} {C : ℚ}
    (h : ∀ q ∈ l, f q ≤ C) : (l.map f).sum ≤ (l.length : ℚ) * C := by
  induction l with
  | nil => simp
  | cons q rest ih =>
      have h1 : f q ≤ C := h q (by simp)
      have h2 : (rest.map f).sum ≤ (rest.length : ℚ) * C :=
        ih (fun r hr => h r (by simp [hr]))
      simp only [List.map_cons, List.sum_cons, List.length_cons]
      push_cast
      nlinarith [h1, h2]

theorem len_mul_le_sum {l : Bal} {f : (String × ℚ) → ℚ} {C : ℚ}
    (h : ∀ q ∈ l, C ≤ f q) : (l.length : ℚ) * C ≤ (l.map f).sum := by
  induction l with
  | nil => simp
  | cons q rest ih =>
      have h1 : C ≤ f q := h q (by simp)
      have h2 : (rest.length : ℚ) * C ≤ (rest.map f).sum :=
        ih (fun r hr => h r (by simp [hr]))
      simp only [List.map_cons, List.sum_cons, List.length_cons]
      push_cast
      nlinarith [h1, h2]

theorem sum_map_nonpos {l : Bal} {f : (String × ℚ) → ℚ}
    (h : ∀ r ∈ l, f r ≤ 0) : (l.map f).sum ≤ 0 := by
  induction l with
  | nil => simp
  | cons r rest ih =>
      simp only [List.map_cons, List.sum_cons]
      have h1 := h r (by simp)
      have h2 := ih (fun x hx => h x (by simp [hx]))
      linarith

theorem sum_map_nonneg {l : Bal} {f : (String × ℚ) → ℚ}
    (h : ∀ r ∈ l, 0 ≤ f r) : 0 ≤ (l.map f).sum := by
  induction l with
  | nil => simp
  | cons r rest ih =>
      simp only [List.map_cons, List.sum_cons]
      have h1 := h r (by simp)
      have h2 := ih (fun x hx => h x (by simp [hx]))
      linarith

theorem sum_le_single_of_nonpos {l : Bal} {f : (String × ℚ) → ℚ} {q : String × ℚ}
    (hq : q ∈ l) (h : ∀ r ∈ l, f r ≤ 0) : (l.map f).sum ≤ f q := by
  induction l with
  | nil => simp at hq
  | cons r rest ih =>
      simp only [List.map_cons, List.sum_cons]
      rcases List.mem_cons.mp hq with he | he
      · subst he
        have hsum : (rest.map f).sum ≤ 0 :=
          sum_map_nonpos (fun x hx => h x (by simp [hx]))
        linarith
      · have h1 := ih he (fun x hx => h x (by simp [hx]))
        have h2 := h r (by simp)
        linarith

theorem single_le_sum_of_nonneg {l : Bal} {f : (String × ℚ) → ℚ} {q : String × ℚ}
    (hq : q ∈ l) (h : ∀ r ∈ l, 0 ≤ f r) : f q ≤ (l.map f).sum := by
  induction l with
  | nil => simp at hq
  | cons r rest ih =>
      simp only [List.map_cons, List.sum_cons]
      rcases List.mem_cons.mp hq with he | he
      · subst he
        have hsum : 0 ≤ (rest.map f).sum :=
          sum_map_nonneg (fun x hx => h x (by simp [hx]))
        linarith
      · have h1 := ih he (fun x hx => h x (by simp [hx]))
        have h2 := h r (by simp)
        linarith

/-! ### The settlement computation on a whole balance table -/

theorem mem_of_mem_creditorsOf {b : Bal} {q : String × ℚ} (h : q ∈ creditorsOf b) :
    q ∈ b ∧ eps < q.2 := by
  have h1 := List.mem_filter.mp h
  exact ⟨h1.1, by simpa using h1.2⟩

theorem mem_of_mem_debtorsOf {b : Bal} {q : String × ℚ} (h : q ∈ debtorsOf b) :
    q ∈ b ∧ q.2 < -eps := by
  have h1 := List.mem_filter.mp h
  exact ⟨h1.1, by simpa using h1.2⟩

theorem mem_of_mem_othersOf {b : Bal} {q : String × ℚ} (h : q ∈ othersOf b) :
    q ∈ b ∧ |q.2| ≤ eps := by
  have h1 := List.mem_filter.mp h
  exact ⟨h1.1, by simpa using h1.2⟩

theorem creditorsOf_sign {b : Bal} : ∀ q ∈ creditorsOf b, eps ≤ q.2 :=
  fun q hq => le_of_lt (mem_of_mem_creditorsOf hq).2

theorem debtorsOf_sign {b : Bal} : ∀ q ∈ debtorsOf b, q.2 ≤ -eps :=
  fun q hq => le_of_lt (mem_of_mem_debtorsOf hq).2

theorem keysNodup_filter {b : Bal} (p : (String × ℚ) → Bool) (h : KeysNodup b) :
    KeysNodup (b.filter p) :=
  ((List.filter_sublist b).map Prod.fst).nodup h

theorem keys_filter_subset {b : Bal} (p : (String × ℚ) → Bool) :
    keys (b.filter p) ⊆ keys b :=
  ((List.filter_sublist b).map Prod.fst).subset

theorem mem_tri {b : Bal} {q : String × ℚ} (hq : q ∈ b) :
    q ∈ creditorsOf b ∨ q ∈ debtorsOf b ∨ |q.2| ≤ eps := by
  by_cases h1 : q.2 > eps
  · exact Or.inl (List.mem_filter.mpr ⟨hq, by simpa using h1⟩)
  · by_cases h2 : q.2 < -eps
    · exact Or.inr (Or.inl (List.mem_filter.mpr ⟨hq, by simpa using h2⟩))
    · refine Or.inr (Or.inr ?_)
      rw [abs_le]
      push_neg at h1 h2
      constructor <;> linarith

theorem value_at_key {b : Bal} {q : String × ℚ} {v : ℚ}
    (hnd : KeysNodup b) (hq : q ∈ b) (hv : (q.1, v) ∈ b) : v = q.2 :=
  keysNodup_value_unique hnd hv (by rwa [Prod.mk.eta])

theorem creditors_debtors_disjoint {b : Bal} (hnd : KeysNodup b) :
    ∀ x ∈ keys (creditorsOf b), x ∉ keys (debtorsOf b) := by
  intro x hxc hxd
  rcases mem_keys_iff.mp hxc with ⟨v, hv⟩
  rcases mem_keys_iff.mp hxd with ⟨w, hw⟩
  obtain ⟨hvb, hvpos⟩ := mem_of_mem_creditorsOf hv
  obtain ⟨hwb, hwneg⟩ := mem_of_mem_debtorsOf hw
  have : v = w := keysNodup_value_unique hnd hvb hwb
  simp only at hvpos hwneg
  rw [this] at hvpos
  linarith [eps_pos]

theorem settle_from_to {b : Bal} :
    ∀ s ∈ settle b, s.from_ ∈ keys (debtorsOf b) ∧ s.to_ ∈ keys (creditorsOf b) :=
  settleLoop_from_to _ _ _

theorem settle_from_to_keys {b : Bal} :
    ∀ s ∈ settle b, s.from_ ∈ keys b ∧ s.to_ ∈ keys b := by
  intro s hs
  obtain ⟨h1, h2⟩ := settle_from_to s hs
  exact ⟨keys_filter_subset _ h1, keys_filter_subset _ h2⟩

theorem delta_settle_untouched {b : Bal} {q : String × ℚ}
    (hnd : KeysNodup b) (hq : q ∈ b) (habs : |q.2| ≤ eps) :
    delta q.1 (settle b) = 0 := by
  have hnc : q.1 ∉ keys (creditorsOf b) := by
    intro hm
    rcases mem_keys_iff.mp hm with ⟨v, hv⟩
    obtain ⟨hvb, hvpos⟩ := mem_of_mem_creditorsOf hv
    have he : v = q.2 := value_at_key hnd hq hvb
    simp only at hvpos
    rw [he] at hvpos
    have := abs_le.mp habs
    linarith [this.2]
  have hndk : q.1 ∉ keys (debtorsOf b) := by
    intro hm
    rcases mem_keys_iff.mp hm with ⟨v, hv⟩
    obtain ⟨hvb, hvneg⟩ := mem_of_mem_debtorsOf hv
    have he : v = q.2 := value_at_key hnd hq hvb
    simp only at hvneg
    rw [he] at hvneg
    have := abs_le.mp habs
    linarith [this.1]
  refine delta_not_mentioned ?_
  intro s hs
  obtain ⟨h1, h2⟩ := settle_from_to s hs
  exact ⟨fun he => hndk (he ▸ h1), fun he => hnc (he ▸ h2)⟩

/-- Main correctness facts of the settlement planner on a balance
table with distinct keys: every adjusted balance shrinks toward zero
without overshooting, one whole side of the ledger finishes within
`eps` of zero, and every adjusted balance is bounded by the initial
imbalance plus `n * eps`. -/
theorem settle_adjusted {b : Bal} (hnd : KeysNodup b) :
    (∀ q ∈ b, min 0 q.2 ≤ q.2 + delta q.1 (settle b) ∧
              q.2 + delta q.1 (settle b) ≤ max 0 q.2)
  ∧ ((∀ q ∈ b, q.2 + delta q.1 (settle b) ≤ eps) ∨
     (∀ q ∈ b, -eps ≤ q.2 + delta q.1 (settle b)))
  ∧ (∀ q ∈ b, |q.2 + delta q.1 (settle b)| ≤ |sumVals b| + (b.length : ℚ) * eps) := by
  have hC : ∀ q ∈ creditorsOf b, eps ≤ q.2 := creditorsOf_sign
  have hD : ∀ q ∈ debtorsOf b, q.2 ≤ -eps := debtorsOf_sign
  have hndc : KeysNodup (creditorsOf b) := keysNodup_filter _ hnd
  have hndd : KeysNodup (debtorsOf b) := keysNodup_filter _ hnd
  have hdisj := creditors_debtors_disjoint hnd
  obtain ⟨M1, M2, M3⟩ := settleLoop_adjusted
    ((creditorsOf b).length + (debtorsOf b).length) (creditorsOf b) (debtorsOf b)
    hC hD hndc hndd hdisj le_rfl
  have hSdef : settleLoop ((creditorsOf b).length + (debtorsOf b).length)
      (creditorsOf b) (debtorsOf b) = settle b := rfl
  rw [hSdef] at M1 M2 M3
  have hone : (∀ q ∈ b, q.2 + delta q.1 (settle b) ≤ eps) ∨
      (∀ q ∈ b, -eps ≤ q.2 + delta q.1 (settle b)) := by
    rcases M3 with hl | hr
    · refine Or.inl ?_
      intro q hq
      rcases mem_tri hq with hc | hd | ho
      · exact hl q hc
      · have := (M2 q hd).2
        linarith [eps_pos]
      · rw [delta_settle_untouched hnd hq ho]
        have := le_abs_self q.2
        linarith
    · refine Or.inr ?_
      intro q hq
      rcases mem_tri hq with hc | hd | ho
      · have := (M1 q hc).1
        linarith [eps_pos]
      · exact hr q hd
      · rw [delta_settle_untouched hnd hq ho]
        have := neg_abs_le q.2
        linarith
  refine ⟨?_, hone, ?_⟩
  · intro q hq
    rcases mem_tri hq with hc | hd | ho
    · obtain ⟨h1, h2⟩ := M1 q hc
      constructor
      · linarith [min_le_left (0:ℚ) q.2]
      · linarith [le_max_right (0:ℚ) q.2]
    · obtain ⟨h1, h2⟩ := M2 q hd
      constructor
      · linarith [min_le_right (0:ℚ) q.2]
      · linarith [le_max_left (0:ℚ) q.2]
    · rw [delta_settle_untouched hnd hq ho]
      constructor
      · linarith [min_le_right (0:ℚ) q.2]
      · linarith [le_max_right (0:ℚ) q.2]
  · intro q hq
    have hcons : (b.map (fun r => r.2 + delta r.1 (settle b))).sum = sumVals b := by
      have h1 := sum_map_add (fun r : String × ℚ => r.2)
        (fun r : String × ℚ => delta r.1 (settle b)) b
      have h2 : (b.map (fun r : String × ℚ => delta r.1 (settle b))).sum = 0 :=
        delta_sum_zero hnd settle_from_to_keys
      rw [h1, h2]
      simp [sumVals]
    have hn1 : (1 : ℚ) ≤ (b.length : ℚ) := by
      have : 1 ≤ b.length := List.length_pos.mpr (List.ne_nil_of_mem hq)
      exact_mod_cast this
    have heps_n : eps ≤ (b.length : ℚ) * eps := by
      nlinarith [eps_pos]
    have hlen : ((creditorsOf b).length : ℚ) + ((debtorsOf b).length : ℚ)
        + ((othersOf b).length : ℚ) = (b.length : ℚ) := by
      exact_mod_cast congrArg (Nat.cast (R := ℚ)) (three_way_length b)
    have hsplit := three_way_sum (fun r => r.2 + delta r.1 (settle b)) b
    rw [hcons] at hsplit
    have hTlow := neg_abs_le (sumVals b)
    have hThigh := le_abs_self (sumVals b)
    have hco_c : ((creditorsOf b).length : ℚ) * eps + ((othersOf b).length : ℚ) * eps
        ≤ ((b.length : ℚ)) * eps := by
      have hdnn : (0:ℚ) ≤ ((debtorsOf b).length : ℚ) := by positivity
      nlinarith [eps_pos]
    have hco_d : ((debtorsOf b).length : ℚ) * eps + ((othersOf b).length : ℚ) * eps
        ≤ ((b.length : ℚ)) * eps := by
      have hcnn : (0:ℚ) ≤ ((creditorsOf b).length : ℚ) := by positivity
      nlinarith [eps_pos]
    rcases hone with hl | hr
    · rcases mem_tri hq with hc | hd | ho
      · have h1 := (M1 q hc).1
        have h2 := hl q hq
        rw [abs_le]
        constructor <;> linarith [abs_nonneg (sumVals b)]
      · -- the debtor side may absorb the residual imbalance
        have hadj_le : q.2 + delta q.1 (settle b) ≤ 0 := (M2 q hd).2
        have hsingle : ((debtorsOf b).map (fun r => r.2 + delta r.1 (settle b))).sum
            ≤ q.2 + delta q.1 (settle b) :=
          sum_le_single_of_nonpos hd (fun r hr => (M2 r hr).2)
        have hcsum : ((creditorsOf b).map (fun r => r.2 + delta r.1 (settle b))).sum
            ≤ ((creditorsOf b).length : ℚ) * eps :=
          sum_le_len_mul (fun r hr => hl r (mem_of_mem_creditorsOf hr).1)
        have hosum : ((othersOf b).map (fun r => r.2 + delta r.1 (settle b))).sum
            ≤ ((othersOf b).length : ℚ) * eps :=
          sum_le_len_mul (fun r hr => hl r (mem_of_mem_othersOf hr).1)
        rw [abs_of_nonpos hadj_le]
        linarith
      · rw [delta_settle_untouched hnd hq ho]
        have h1 := abs_le.mp ho
        rw [abs_le]
        constructor <;> linarith [abs_nonneg (sumVals b)]
    · rcases mem_tri hq with hc | hd | ho
      · -- the creditor side may absorb the residual imbalance
        have hadj_ge : 0 ≤ q.2 + delta q.1 (settle b) := (M1 q hc).1
        have hsingle : q.2 + delta q.1 (settle b)
            ≤ ((creditorsOf b).map (fun r => r.2 + delta r.1 (settle b))).sum :=
          single_le_sum_of_nonneg hc (fun r hr => (M1 r hr).1)
        have hdsum : ((debtorsOf b).length : ℚ) * (-eps)
            ≤ ((debtorsOf b).map (fun r => r.2 + delta r.1 (settle b))).sum :=
          len_mul_le_sum (fun r hrr => hr r (mem_of_mem_debtorsOf hrr).1)
        have hosum : ((othersOf b).length : ℚ) * (-eps)
            ≤ ((othersOf b).map (fun r => r.2 + delta r.1 (settle b))).sum :=
          len_mul_le_sum (fun r hrr => hr r (mem_of_mem_othersOf hrr).1)
        rw [abs_of_nonneg hadj_ge]
        nlinarith
      · have h1 := (M2 q hd).2
        have h2 := hr q hq
        rw [abs_le]
        constructor <;> linarith [abs_nonneg (sumVals b)]
      · rw [delta_settle_untouched hnd hq ho]
        have h1 := abs_le.mp ho
        rw [abs_le]
        constructor <;> linarith [abs_nonneg (sumVals b)]

/-! ### Ledger-aggregator facts -/

theorem keys_dfkStep_mem (acc : Bal) (t x : String) :
    x ∈ keys (dfkStep acc t) ↔ x ∈ keys acc ∨ x = t := by
  unfold dfkStep
  split
  · rename_i h
    constructor
    · exact Or.inl
    · rintro (hx | hx)
      · exact hx
      · rwa [hx]
  · simp [keys]

theorem dfkStep_zero {acc : Bal} (t : String) (h : ∀ q ∈ acc, q.2 = 0) :
    ∀ q ∈ dfkStep acc t, q.2 = 0 := by
  intro q hq
  unfold dfkStep at hq
  split at hq
  · exact h q hq
  · rcases List.mem_append.mp hq with h1 | h1
    · exact h q h1
    · simp at h1
      rw [h1]

theorem keysNodup_dfkStep {acc : Bal} (t : String) (h : KeysNodup acc) :
    KeysNodup (dfkStep acc t) := by
  unfold dfkStep
  split
  · exact h
  · rename_i hnm
    have hkeys : keys (acc ++ [(t, 0)]) = keys acc ++ [t] := by simp [keys]
    unfold KeysNodup
    rw [hkeys]
    refine h.append (by simp) ?_
    intro a ha hb
    simp at hb
    subst hb
    exact hnm ha

theorem dictFromKeys_foldl_zero :
    ∀ (l : List String) (acc : Bal), (∀ q ∈ acc, q.2 = 0) →
      ∀ q ∈ l.foldl dfkStep acc, q.2 = 0 := by
  intro l
  induction l with
  | nil => intro acc h; simpa using h
  | cons t ts ih =>
      intro acc h
      rw [List.foldl_cons]
      exact ih (dfkStep acc t) (dfkStep_zero t h)

theorem dictFromKeys_foldl_keys :
    ∀ (l : List String) (acc : Bal) (x : String),
      x ∈ keys (l.foldl dfkStep acc) ↔ x ∈ keys acc ∨ x ∈ l := by
  intro l
  induction l with
  | nil => intro acc x; simp
  | cons t ts ih =>
      intro acc x
      rw [List.foldl_cons, ih (dfkStep acc t) x, keys_dfkStep_mem]
      constructor
      · rintro ((h | h) | h)
        · exact Or.inl h
        · exact Or.inr (by simp [h])
        · exact Or.inr (by simp [h])
      · rintro (h | h)
        · exact Or.inl (Or.inl h)
        · rcases List.mem_cons.mp h with h1 | h1
          · exact Or.inl (Or.inr h1)
          · exact Or.inr h1

theorem dictFromKeys_foldl_nodup :
    ∀ (l : List String) (acc : Bal), KeysNodup acc →
      KeysNodup (l.foldl dfkStep acc) := by
  intro l
  induction l with
  | nil => intro acc h; simpa using h
  | cons t ts ih =>
      intro acc h
      rw [List.foldl_cons]
      exact ih (dfkStep acc t) (keysNodup_dfkStep t h)

theorem dictFromKeys_zero {l : List String} : ∀ q ∈ dictFromKeys l, q.2 = 0 :=
  dictFromKeys_foldl_zero l [] (by simp)

theorem mem_keys_dictFromKeys {l : List String} {x : String} :
    x ∈ keys (dictFromKeys l) ↔ x ∈ l := by
  unfold dictFromKeys
  rw [dictFromKeys_foldl_keys]
  simp [keys]

theorem keysNodup_dictFromKeys (l : List String) : KeysNodup (dictFromKeys l) :=
  dictFromKeys_foldl_nodup l [] (by simp [KeysNodup, keys])

theorem sumVals_eq_zero {b : Bal} (h : ∀ q ∈ b, q.2 = 0) : sumVals b = 0 := by
  induction b with
  | nil => rfl
  | cons q rest ih =>
      simp only [sumVals, List.map_cons, List.sum_cons]
      rw [h q (by simp)]
      have := ih (fun r hr => h r (by simp [hr]))
      simp only [sumVals] at this
      rw [this]
      ring

theorem sumVals_dictFromKeys (l : List String) : sumVals (dictFromKeys l) = 0 :=
  sumVals_eq_zero dictFromKeys_zero

theorem lookup_addVal_self {b : Bal} {k : String} (v : ℚ) (h : k ∈ keys b) :
    lookup (addVal b k v) k = lookup b k + v := by
  induction b with
  | nil => simp [keys] at h
  | cons p rest ih =>
      obtain ⟨k0, v0⟩ := p
      by_cases hk : k0 = k
      · subst hk
        simp [addVal, lookup]
      · have h1 : k ∈ keys rest := by
          rcases mem_keys_iff.mp h with ⟨w, hw⟩
          rcases List.mem_cons.mp hw with he | he
          · exact absurd (congrArg Prod.fst he).symm hk
          · exact mem_keys_iff.mpr ⟨w, he⟩
        simp [addVal, lookup, hk, ih h1]

theorem lookup_addVal_ne {b : Bal} {k x : String} (v : ℚ) (h : x ≠ k) :
    lookup (addVal b k v) x = lookup b x := by
  induction b with
  | nil => simp [addVal]
  | cons p rest ih =>
      obtain ⟨k0, v0⟩ := p
      by_cases hk : k0 = k
      · subst hk
        have hne : k0 ≠ x := fun he => h he.symm
        simp [addVal, lookup, hne]
      · by_cases hx : k0 = x
        · subst hx
          simp [addVal, lookup, hk]
        · simp [addVal, lookup, hk, hx, ih]

theorem sumVals_addVal {b : Bal} {k : String} (v : ℚ) (h : k ∈ keys b) :
    sumVals (addVal b k v) = sumVals b + v := by
  induction b with
  | nil => simp [keys] at h
  | cons p rest ih =>
      obtain ⟨k0, v0⟩ := p
      by_cases hk : k0 = k
      · subst hk
        simp [addVal, sumVals]
        ring
      · have h1 : k ∈ keys rest := by
          rcases mem_keys_iff.mp h with ⟨w, hw⟩
          rcases List.mem_cons.mp hw with he | he
          · exact absurd (congrArg Prod.fst he).symm hk
          · exact mem_keys_iff.mpr ⟨w, he⟩
        simp only [addVal, hk, if_neg, not_false_iff, sumVals, List.map_cons,
          List.sum_cons]
        have := ih h1
        simp only [sumVals] at this
        rw [this]
        ring

theorem keys_debitStep (sh : ℚ) (bb : Bal) (p : String) :
    keys (debitStep sh bb p) = keys bb := by
  unfold debitStep
  split
  · exact keys_addVal bb p (-sh)
  · rfl

theorem keys_debitFold (sh : ℚ) :
    ∀ (sl : List String) (b : Bal), keys (sl.foldl (debitStep sh) b) = keys b := by
  intro sl
  induction sl with
  | nil => intro b; rfl
  | cons p rest ih =>
      intro b
      rw [List.foldl_cons, ih (debitStep sh b p), keys_debitStep]

theorem sumVals_debitFold (sh : ℚ) :
    ∀ (sl : List String) (b : Bal), (∀ p ∈ sl, p ∈ keys b) →
      sumVals (sl.foldl (debitStep sh) b) = sumVals b - sh * (sl.length : ℚ) := by
  intro sl
  induction sl with
  | nil => intro b _; simp
  | cons p rest ih =>
      intro b h
      rw [List.foldl_cons]
      have hp : p ∈ keys b := h p (by simp)
      have hstep : debitStep sh b p = addVal b p (-sh) := by
        unfold debitStep
        rw [if_pos hp]
      have hkeys : keys (debitStep sh b p) = keys b := keys_debitStep sh b p
      have hrest : ∀ x ∈ rest, x ∈ keys (debitStep sh b p) := by
        intro x hx
        rw [hkeys]
        exact h x (by simp [hx])
      rw [ih (debitStep sh b p) hrest, hstep, sumVals_addVal (-sh) hp]
      simp only [List.length_cons]
      push_cast
      ring

theorem lookup_debitFold (sh : ℚ) :
    ∀ (sl : List String) (b : Bal), (∀ p ∈ sl, p ∈ keys b) →
      ∀ x, lookup (sl.foldl (debitStep sh) b) x
        = lookup b x - sh * (sl.count x : ℚ) := by
  intro sl
  induction sl with
  | nil => intro b _ x; simp
  | cons p rest ih =>
      intro b h x
      rw [List.foldl_cons]
      have hp : p ∈ keys b := h p (by simp)
      have hstep : debitStep sh b p = addVal b p (-sh) := by
        unfold debitStep
        rw [if_pos hp]
      have hkeys : keys (debitStep sh b p) = keys b := keys_debitStep sh b p
      have hrest : ∀ y ∈ rest, y ∈ keys (debitStep sh b p) := by
        intro y hy
        rw [hkeys]
        exact h y (by simp [hy])
      rw [ih (debitStep sh b p) hrest x, hstep]
      by_cases hx : x = p
      · subst hx
        rw [lookup_addVal_self (-sh) hp]
        have hcount : (x :: rest).count x = rest.count x + 1 := by
          simp [List.count_cons]
        rw [hcount]
        push_cast
        ring
      · rw [lookup_addVal_ne (-sh) hx]
        have hcount : (p :: rest).count x = rest.count x := by
          simp [List.count_cons, hx]
        rw [hcount]

theorem keys_applyExpense (t : List String) (b : Bal) (e : Expense) :
    keys (applyExpense t b e) = keys b := by
  by_cases h : split_list t e = []
  · unfold applyExpense
    rw [if_pos h]
  · unfold applyExpense
    rw [if_neg h]
    show keys ((split_list t e).foldl (debitStep (share t e))
      (if e.paid_By ∈ keys b then addVal b e.paid_By e.amount_LKR else b)) = keys b
    rw [keys_debitFold]
    by_cases hp : e.paid_By ∈ keys b
    · rw [if_pos hp, keys_addVal]
    · rw [if_neg hp]

theorem keys_foldl_applyExpense {t : List String} :
    ∀ (es : List Expense) (b : Bal), keys (es.foldl (applyExpense t) b) = keys b := by
  intro es
  induction es with
  | nil => intro b; rfl
  | cons e rest ih =>
      intro b
      rw [List.foldl_cons, ih (applyExpense t b e), keys_applyExpense]

theorem keys_computeBalances (t : List String) (es : List Expense) :
    keys (computeBalances t es) = keys (dictFromKeys t) :=
  keys_foldl_applyExpense es (dictFromKeys t)

theorem mem_keys_computeBalances {t : List String} {es : List Expense} {x : String} :
    x ∈ keys (computeBalances t es) ↔ x ∈ t := by
  rw [keys_computeBalances, mem_keys_dictFromKeys]

theorem keysNodup_computeBalances (t : List String) (es : List Expense) :
    KeysNodup (computeBalances t es) := by
  unfold KeysNodup
  rw [keys_computeBalances]
  exact keysNodup_dictFromKeys t

theorem sumVals_applyExpense {t : List String} {b : Bal} {e : Expense}
    (hkeys : ∀ x, x ∈ keys b ↔ x ∈ t)
    (hp : e.paid_By ∈ t) (hs : ∀ s ∈ e.split_Between, s ∈ t) :
    sumVals (applyExpense t b e) = sumVals b := by
  by_cases h : split_list t e = []
  · unfold applyExpense
    rw [if_pos h]
  · have hpk : e.paid_By ∈ keys b := (hkeys _).mpr hp
    have hmem : ∀ p ∈ split_list t e,
        p ∈ keys (if e.paid_By ∈ keys b then addVal b e.paid_By e.amount_LKR else b) := by
      intro p hpe
      have hpt : p ∈ t := by
        unfold split_list at hpe
        simpa using (List.mem_filter.mp hpe).2
      rw [if_pos hpk, keys_addVal]
      exact (hkeys p).mpr hpt
    have hlen : ((split_list t e).length : ℚ) ≠ 0 := by
      have h1 : 0 < (split_list t e).length := List.length_pos.mpr h
      exact_mod_cast Nat.pos_iff_ne_zero.mp h1
    unfold applyExpense
    rw [if_neg h]
    show sumVals ((split_list t e).foldl (debitStep (share t e))
      (if e.paid_By ∈ keys b then addVal b e.paid_By e.amount_LKR else b)) = sumVals b
    rw [sumVals_debitFold (share t e) (split_list t e) _ hmem, if_pos hpk,
      sumVals_addVal _ hpk]
    unfold share
    rw [div_mul_cancel₀ _ hlen]
    ring

theorem sumVals_foldl_applyExpense {t : List String} :
    ∀ (es : List Expense) (b : Bal), (∀ x, x ∈ keys b ↔ x ∈ t) →
      (∀ e ∈ es, e.paid_By ∈ t ∧ ∀ s ∈ e.split_Between, s ∈ t) →
      sumVals (es.foldl (applyExpense t) b) = sumVals b := by
  intro es
  induction es with
  | nil => intro b _ _; rfl
  | cons e rest ih =>
      intro b hkeys h
      rw [List.foldl_cons]
      have he := h e (by simp)
      have hkeys1 : ∀ x, x ∈ keys (applyExpense t b e) ↔ x ∈ t := by
        intro x
        rw [keys_applyExpense]
        exact hkeys x
      rw [ih (applyExpense t b e) hkeys1 (fun r hr => h r (by simp [hr])),
        sumVals_applyExpense hkeys he.1 he.2]

theorem sumVals_computeBalances {t : List String} {es : List Expense}
    (h : ∀ e ∈ es, e.paid_By ∈ t ∧ ∀ s ∈ e.split_Between, s ∈ t) :
    sumVals (computeBalances t es) = 0 := by
  unfold computeBalances
  rw [sumVals_foldl_applyExpense es (dictFromKeys t)
    (fun x => mem_keys_dictFromKeys) h, sumVals_dictFromKeys]

theorem applyExpense_skip {t : List String} {b : Bal} {e : Expense}
    (h : split_list t e = []) : applyExpense t b e = b := by
  unfold applyExpense
  rw [if_pos h]

theorem foldl_applyExpense_skipped {t : List String} :
    ∀ (es : List Expense) (b : Bal), (∀ e ∈ es, split_list t e = []) →
      es.foldl (applyExpense t) b = b := by
  intro es
  induction es with
  | nil => intro b _; rfl
  | cons e rest ih =>
      intro b h
      rw [List.foldl_cons, applyExpense_skip (h e (by simp)),
        ih b (fun r hr => h r (by simp [hr]))]

theorem computeBalances_skipped {t : List String} {es : List Expense}
    (h : ∀ e ∈ es, split_list t e = []) :
    computeBalances t es = dictFromKeys t :=
  foldl_applyExpense_skipped es (dictFromKeys t) h

theorem settle_of_all_small {b : Bal} (h : ∀ q ∈ b, |q.2| ≤ eps) :
    creditorsOf b = [] ∧ debtorsOf b = [] ∧ settle b = [] := by
  have hc : creditorsOf b = [] := by
    unfold creditorsOf
    rw [List.filter_eq_nil]
    intro a ha
    have h1 := abs_le.mp (h a ha)
    simp only [decide_eq_true_eq]
    push_neg
    exact h1.2
  have hd : debtorsOf b = [] := by
    unfold debtorsOf
    rw [List.filter_eq_nil]
    intro a ha
    have h1 := abs_le.mp (h a ha)
    simp only [decide_eq_true_eq]
    push_neg
    exact h1.1
  refine ⟨hc, hd, ?_⟩
  unfold settle
  rw [hc, hd]
  rfl

theorem applyExpense_unknown_payer {t : List String} {b : Bal} {e : Expense}
    (hkeys : ∀ x, x ∈ keys b ↔ x ∈ t)
    (hp : e.paid_By ∉ t) (hne : split_list t e ≠ []) :
    applyExpense t b e = (split_list t e).foldl (debitStep (share t e)) b
    ∧ (∀ x, lookup (applyExpense t b e) x
        = lookup b x - share t e * ((split_list t e).count x : ℚ))
    ∧ lookup (applyExpense t b e) e.paid_By = lookup b e.paid_By := by
  have hpk : e.paid_By ∉ keys b := fun hm => hp ((hkeys _).mp hm)
  have hstruct : applyExpense t b e
      = (split_list t e).foldl (debitStep (share t e)) b := by
    unfold applyExpense
    rw [if_neg hne]
    show (split_list t e).foldl (debitStep (share t e))
      (if e.paid_By ∈ keys b then addVal b e.paid_By e.amount_LKR else b) = _
    rw [if_neg hpk]
  have hmem : ∀ p ∈ split_list t e, p ∈ keys b := by
    intro p hpe
    refine (hkeys p).mpr ?_
    unfold split_list at hpe
    simpa using (List.mem_filter.mp hpe).2
  have hlook : ∀ x, lookup (applyExpense t b e) x
      = lookup b x - share t e * ((split_list t e).count x : ℚ) := by
    intro x
    rw [hstruct]
    exact lookup_debitFold (share t e) (split_list t e) b hmem x
  refine ⟨hstruct, hlook, ?_⟩
  rw [hlook e.paid_By]
  have hcount : (split_list t e).count e.paid_By = 0 := by
    rw [List.count_eq_zero]
    intro hm
    refine hp ?_
    unfold split_list at hm
    simpa using (List.mem_filter.mp hm).2
  rw [hcount]
  push_cast
  ring

/-! ### The claims -/

/-- Claim C2: when every payer and every split participant is a known
traveler, the computed balances sum to exactly 0, hence certainly to
within 1e-6. -/
theorem claim_C2 (travelers : List String) (expenses : List Expense)
    (h : ∀ e ∈ expenses, e.paid_By ∈ travelers ∧ ∀ s ∈ e.split_Between, s ∈ travelers) :
    sumVals (computeBalances travelers expenses) = 0
    ∧ |sumVals (computeBalances travelers expenses)| ≤ 1 / 1000000 := by
  have h1 := sumVals_computeBalances h
  refine ⟨h1, ?_⟩
  rw [h1]
  norm_num

/-- Witness for C2 at Scenario 1 (A pays 100 split across A and B). -/
theorem claim_C2_witness :
    (∀ e ∈ [(⟨"A", (100:ℚ), ["A","B"]⟩ : Expense)],
      e.paid_By ∈ ["A","B"] ∧ ∀ s ∈ e.split_Between, s ∈ ["A","B"])
    ∧ (sumVals (computeBalances ["A","B"] [⟨"A", (100:ℚ), ["A","B"]⟩]) = 0
       ∧ |sumVals (computeBalances ["A","B"] [⟨"A", (100:ℚ), ["A","B"]⟩])| ≤ 1 / 1000000) := by
  have h : ∀ e ∈ [(⟨"A", (100:ℚ), ["A","B"]⟩ : Expense)],
      e.paid_By ∈ ["A","B"] ∧ ∀ s ∈ e.split_Between, s ∈ ["A","B"] := by
    intro e he
    simp at he
    subst he
    norm_num
  exact ⟨h, claim_C2 _ _ h⟩

/-- Claim C3: the settlement loop terminates -- any fuel of at least
`|creditors| + |debtors|` yields the final result; every iteration
removes at least one entry; under the loop invariants every iteration
decreases the sum of absolute tracked balances by at least
`2 * amount` (with `amount > 0`); and the iteration count is at most
`|creditors| + |debtors| - 1`. -/
theorem claim_C3 (b : Bal) :
    (∀ fuel : Nat, (creditorsOf b).length + (debtorsOf b).length ≤ fuel →
        settleLoop fuel (creditorsOf b) (debtorsOf b) = settle b)
  ∧ (∀ (c d : Bal) (s : Settlement) (c1 d1 : Bal), settleStep c d = some (s, c1, d1) →
        c1.length + d1.length + 1 ≤ c.length + d.length)
  ∧ (∀ (c d : Bal) (s : Settlement) (c1 d1 : Bal),
        (∀ q ∈ c, eps ≤ q.2) → (∀ q ∈ d, q.2 ≤ -eps) → KeysNodup c → KeysNodup d →
        settleStep c d = some (s, c1, d1) →
        absSum c1 + absSum d1 + 2 * s.amount ≤ absSum c + absSum d ∧ 0 < s.amount)
  ∧ (creditorsOf b ≠ [] → debtorsOf b ≠ [] →
        (settle b).length + 1 ≤ (creditorsOf b).length + (debtorsOf b).length) := by
  refine ⟨?_, ?_, ?_, ?_⟩
  · intro fuel hf
    exact settleLoop_fuel_indep fuel _ _ _ hf le_rfl
  · intro c d s c1 d1 h
    exact (settleStep_basic h).1
  · intro c d s c1 d1 hC hD hcn hdn h
    refine ⟨settleStep_absSum hC hD hcn hdn h, ?_⟩
    have := (settleStep_signs hC hD h).2.2
    linarith [eps_pos]
  · intro hc hd
    exact settleLoop_length _ _ _ hc hd

/-- Witness for C3 at the balances A = +50, B = -50 and the concrete
first (and only) loop iteration. -/
theorem claim_C3_witness :
    settleLoop 2 (creditorsOf [("A",(50:ℚ)), ("B",(-50:ℚ))])
        (debtorsOf [("A",(50:ℚ)), ("B",(-50:ℚ))])
      = settle [("A",(50:ℚ)), ("B",(-50:ℚ))]
    ∧ ([] : Bal).length + ([] : Bal).length + 1
      ≤ [("A",(50:ℚ))].length + [("B",(-50:ℚ))].length
    ∧ (absSum ([] : Bal) + absSum ([] : Bal)
        + 2 * (⟨"B","A",(50:ℚ)⟩ : Settlement).amount
        ≤ absSum [("A",(50:ℚ))] + absSum [("B",(-50:ℚ))]
       ∧ 0 < (⟨"B","A",(50:ℚ)⟩ : Settlement).amount)
    ∧ ((settle [("A",(50:ℚ)), ("B",(-50:ℚ))]).length + 1
      ≤ (creditorsOf [("A",(50:ℚ)), ("B",(-50:ℚ))]).length
        + (debtorsOf [("A",(50:ℚ)), ("B",(-50:ℚ))]).length) := by
  obtain ⟨p1, p2, p3, p4⟩ := claim_C3 [("A",(50:ℚ)), ("B",(-50:ℚ))]
  have hstep : settleStep [("A",(50:ℚ))] [("B",(-50:ℚ))]
      = some (⟨"B","A",50⟩, ([] : Bal), ([] : Bal)) := by
    norm_num +decide [settleStep, maxBy, minBy, pickMax, pickMin, setVal, eraseKey,
      eps, min_def, abs_of_nonneg, abs_of_nonpos]
  refine ⟨?_, ?_, ?_, ?_⟩
  · refine p1 2 ?_
    norm_num [creditorsOf, debtorsOf, eps, List.filter]
  · exact p2 _ _ _ _ _ hstep
  · refine p3 _ _ _ _ _ ?_ ?_ ?_ ?_ hstep
    · intro q hq
      simp at hq
      rw [hq]
      norm_num [eps]
    · intro q hq
      simp at hq
      rw [hq]
      norm_num [eps]
    · simp +decide [KeysNodup, keys]
    · simp +decide [KeysNodup, keys]
  · refine p4 ?_ ?_ <;>
      norm_num [creditorsOf, debtorsOf, eps, List.filter]

/-- Claim C4: the number of emitted settlements is at most
`max 0 (nonzeroCount - 1)`, a balance counting as nonzero when it lies
outside `eps` of zero. -/
theorem claim_C4 (b : Bal) : (settle b).length ≤ max 0 (nonzeroCount b - 1) := by
  by_cases hc : creditorsOf b = []
  · have h0 : settle b = [] := by
      unfold settle
      rw [hc]
      exact settleLoop_nil_left _ _
    simp [h0]
  · by_cases hd : debtorsOf b = []
    · have h0 : settle b = [] := by
        unfold settle
        rw [hd]
        exact settleLoop_nil_right _ _
      simp [h0]
    · have h1 : (settle b).length + 1
          ≤ (creditorsOf b).length + (debtorsOf b).length :=
        settleLoop_length _ _ _ hc hd
      have h2 := nonzeroCount_eq b
      omega

/-- Claim C5: every emitted settlement carries a strictly positive
amount. -/
theorem claim_C5 (b : Bal) : ∀ s ∈ settle b, 0 < s.amount := by
  intro s hs
  have h := settleLoop_amount_pos _ _ _ creditorsOf_sign debtorsOf_sign s hs
  linarith [eps_pos]

/-- Witness for C5: the settlement B pays A 50. -/
theorem claim_C5_witness :
    (⟨"B","A",(50:ℚ)⟩ : Settlement) ∈ settle [("A",(50:ℚ)), ("B",(-50:ℚ))]
    ∧ 0 < (⟨"B","A",(50:ℚ)⟩ : Settlement).amount := by
  have hmem : (⟨"B","A",(50:ℚ)⟩ : Settlement) ∈ settle [("A",(50:ℚ)), ("B",(-50:ℚ))] := by
    norm_num +decide [settle, settleLoop, settleStep, creditorsOf, debtorsOf, maxBy,
      minBy, pickMax, pickMin, setVal, eraseKey, eps, List.filter, min_def,
      abs_of_nonneg, abs_of_nonpos]
  exact ⟨hmem, claim_C5 _ _ hmem⟩

/-- Claim C6: an expense whose restricted split set is empty is
ignored; a ledger of only such expenses leaves the initial all-zero
balances and an empty settlement list. -/
theorem claim_C6 (travelers : List String) (expenses : List Expense)
    (h : ∀ e ∈ expenses, split_list travelers e = []) :
    computeBalances travelers expenses = dictFromKeys travelers
    ∧ (∀ q ∈ computeBalances travelers expenses, q.2 = 0)
    ∧ settle (computeBalances travelers expenses) = [] := by
  have h1 := computeBalances_skipped h
  have h2 : ∀ q ∈ computeBalances travelers expenses, q.2 = 0 := by
    rw [h1]
    exact dictFromKeys_zero
  refine ⟨h1, h2, ?_⟩
  refine (settle_of_all_small ?_).2.2
  intro q hq
  rw [h2 q hq, abs_zero]
  exact le_of_lt eps_pos

/-- Witness for C6 at Scenario 3: the only expense names the unknown
split participant Z. -/
theorem claim_C6_witness :
    (∀ e ∈ [(⟨"A", (50:ℚ), ["Z"]⟩ : Expense)], split_list ["A","B"] e = [])
    ∧ (computeBalances ["A","B"] [⟨"A", (50:ℚ), ["Z"]⟩] = dictFromKeys ["A","B"]
       ∧ (∀ q ∈ computeBalances ["A","B"] [⟨"A", (50:ℚ), ["Z"]⟩], q.2 = 0)
       ∧ settle (computeBalances ["A","B"] [⟨"A", (50:ℚ), ["Z"]⟩]) = []) := by
  have h : ∀ e ∈ [(⟨"A", (50:ℚ), ["Z"]⟩ : Expense)], split_list ["A","B"] e = [] := by
    intro e he
    simp at he
    subst he
    norm_num +decide [split_list, List.filter]
  exact ⟨h, claim_C6 _ _ h⟩

/-- Claim C7: an expense with a non-empty restricted split set but an
unknown payer silently drops the payer credit while still debiting
every restricted split member its share; the computation is total, so
no error can reach the caller. -/
theorem claim_C7 (travelers : List String) (b : Bal) (e : Expense)
    (hkeys : ∀ x, x ∈ keys b ↔ x ∈ travelers)
    (hp : e.paid_By ∉ travelers) (hne : split_list travelers e ≠ []) :
    applyExpense travelers b e
      = (split_list travelers e).foldl (debitStep (share travelers e)) b
    ∧ (∀ x, lookup (applyExpense travelers b e) x
        = lookup b x - share travelers e * ((split_list travelers e).count x : ℚ))
    ∧ lookup (applyExpense travelers b e) e.paid_By = lookup b e.paid_By :=
  applyExpense_unknown_payer hkeys hp hne

/-- Witness for C7: the unknown payer Z pays 60 split across A and B. -/
theorem claim_C7_witness :
    (∀ x, x ∈ keys [("A",(0:ℚ)), ("B",(0:ℚ))] ↔ x ∈ ["A","B"])
    ∧ (⟨"Z", (60:ℚ), ["A","B"]⟩ : Expense).paid_By ∉ ["A","B"]
    ∧ split_list ["A","B"] (⟨"Z", (60:ℚ), ["A","B"]⟩ : Expense) ≠ []
    ∧ (applyExpense ["A","B"] [("A",(0:ℚ)), ("B",(0:ℚ))] ⟨"Z", (60:ℚ), ["A","B"]⟩
        = (split_list ["A","B"] (⟨"Z", (60:ℚ), ["A","B"]⟩ : Expense)).foldl
          (debitStep (share ["A","B"] ⟨"Z", (60:ℚ), ["A","B"]⟩)) [("A",(0:ℚ)), ("B",(0:ℚ))]
       ∧ (∀ x, lookup (applyExpense ["A","B"] [("A",(0:ℚ)), ("B",(0:ℚ))]
            ⟨"Z", (60:ℚ), ["A","B"]⟩) x
          = lookup [("A",(0:ℚ)), ("B",(0:ℚ))] x
            - share ["A","B"] ⟨"Z", (60:ℚ), ["A","B"]⟩
              * ((split_list ["A","B"] (⟨"Z", (60:ℚ), ["A","B"]⟩ : Expense)).count x : ℚ))
       ∧ lookup (applyExpense ["A","B"] [("A",(0:ℚ)), ("B",(0:ℚ))]
            ⟨"Z", (60:ℚ), ["A","B"]⟩) (⟨"Z", (60:ℚ), ["A","B"]⟩ : Expense).paid_By
          = lookup [("A",(0:ℚ)), ("B",(0:ℚ))] (⟨"Z", (60:ℚ), ["A","B"]⟩ : Expense).paid_By) := by
  have hkeys : ∀ x, x ∈ keys [("A",(0:ℚ)), ("B",(0:ℚ))] ↔ x ∈ ["A","B"] :=
    fun x => Iff.rfl
  have hp : (⟨"Z", (60:ℚ), ["A","B"]⟩ : Expense).paid_By ∉ ["A","B"] := by decide
  have hne : split_list ["A","B"] (⟨"Z", (60:ℚ), ["A","B"]⟩ : Expense) ≠ [] := by
    norm_num +decide [split_list, List.filter]
  exact ⟨hkeys, hp, hne, claim_C7 _ _ _ hkeys hp hne⟩

/-- Claim C8: when every balance is within `eps` of zero both working
dicts start empty and the planner emits no settlements. -/
theorem claim_C8 (b : Bal) (h : ∀ q ∈ b, |q.2| ≤ eps) :
    creditorsOf b = [] ∧ debtorsOf b = [] ∧ settle b = [] :=
  settle_of_all_small h

/-- Witness for C8 at the near-settled balances A = +0.005, B = -0.005. -/
theorem claim_C8_witness :
    (∀ q ∈ [("A",(1/200:ℚ)), ("B",(-1/200:ℚ))], |q.2| ≤ eps)
    ∧ (creditorsOf [("A",(1/200:ℚ)), ("B",(-1/200:ℚ))] = []
       ∧ debtorsOf [("A",(1/200:ℚ)), ("B",(-1/200:ℚ))] = []
       ∧ settle [("A",(1/200:ℚ)), ("B",(-1/200:ℚ))] = []) := by
  have h : ∀ q ∈ [("A",(1/200:ℚ)), ("B",(-1/200:ℚ))], |q.2| ≤ eps := by
    intro q hq
    rcases List.mem_cons.mp hq with h1 | h1
    · rw [h1]
      norm_num [eps, abs_le]
    · simp at h1
      rw [h1]
      norm_num [eps, abs_le]
  exact ⟨h, claim_C8 _ h⟩

/-- Claim C9: on a balance table with distinct keys the creditor and
debtor key sets are disjoint, every emitted settlement has a payer
distinct from its receiver, and one loop iteration keeps all tracked
creditor balances nonnegative and all tracked debtor balances
nonpositive. -/
theorem claim_C9 (b : Bal) (hnd : KeysNodup b) :
    (∀ s ∈ settle b, s.from_ ≠ s.to_)
    ∧ (∀ x ∈ keys (creditorsOf b), x ∉ keys (debtorsOf b))
    ∧ (∀ (c d : Bal) (s : Settlement) (c1 d1 : Bal),
        (∀ q ∈ c, eps ≤ q.2) → (∀ q ∈ d, q.2 ≤ -eps) →
        settleStep c d = some (s, c1, d1) →
        (∀ q ∈ c1, 0 ≤ q.2) ∧ (∀ q ∈ d1, q.2 ≤ 0)) := by
  refine ⟨?_, creditors_debtors_disjoint hnd, ?_⟩
  · intro s hs
    obtain ⟨h1, h2⟩ := settle_from_to s hs
    intro he
    exact creditors_debtors_disjoint hnd s.to_ h2 (he ▸ h1)
  · intro c d s c1 d1 hC hD h
    obtain ⟨hC1, hD1, _⟩ := settleStep_signs hC hD h
    constructor
    · intro q hq
      linarith [hC1 q hq, eps_pos]
    · intro q hq
      linarith [hD1 q hq, eps_pos]

/-- Witness for C9: in the emitted settlement B pays A, the payer and
receiver differ. -/
theorem claim_C9_witness :
    KeysNodup [("A",(50:ℚ)), ("B",(-50:ℚ))]
    ∧ (⟨"B","A",(50:ℚ)⟩ : Settlement).from_ ≠ (⟨"B","A",(50:ℚ)⟩ : Settlement).to_ := by
  have hnd : KeysNodup [("A",(50:ℚ)), ("B",(-50:ℚ))] := by
    simp +decide [KeysNodup, keys]
  have hmem : (⟨"B","A",(50:ℚ)⟩ : Settlement) ∈ settle [("A",(50:ℚ)), ("B",(-50:ℚ))] := by
    norm_num +decide [settle, settleLoop, settleStep, creditorsOf, debtorsOf, maxBy,
      minBy, pickMax, pickMin, setVal, eraseKey, eps, List.filter, min_def,
      abs_of_nonneg, abs_of_nonpos]
  exact ⟨hnd, (claim_C9 _ hnd).1 _ hmem⟩

/-- Claim C10: the aggregator's key set is exactly the supplied
traveler names -- equal to the keys of the initial zero dict, with one
entry per distinct name, never gaining keys from expense rows. -/
theorem claim_C10 (travelers : List String) (expenses : List Expense) :
    keys (computeBalances travelers expenses) = keys (dictFromKeys travelers)
    ∧ (∀ x, x ∈ keys (computeBalances travelers expenses) ↔ x ∈ travelers)
    ∧ KeysNodup (computeBalances travelers expenses) :=
  ⟨keys_computeBalances travelers expenses,
   fun _ => mem_keys_computeBalances,
   keysNodup_computeBalances travelers expenses⟩

/-- Claim C1 (counterexample): the claim fails twice over.  Part A:
with the claim's literal orientation (subtract the amount from the
debtor, add it to the creditor) even the two-person ledger A = +50,
B = -50, whose balances sum to exactly 0, leaves A at distance 100
from zero.  Part B: with the orientation corrected, the ledger
A = +9.991, C = +9.991, E = +0.018, B = -10, D = -10 sums to exactly
0, yet the loop transfers nothing to E, whose adjusted balance 0.018
stays outside eps = 0.01. -/
theorem claim_C1_counterexample :
    (sumVals [("A",(50:ℚ)), ("B",(-50:ℚ))] = 0
      ∧ settle [("A",(50:ℚ)), ("B",(-50:ℚ))] = [⟨"B","A",50⟩]
      ∧ eps < |(50:ℚ) - delta "A" (settle [("A",(50:ℚ)), ("B",(-50:ℚ))])|)
  ∧ (sumVals [("A",(9991/1000:ℚ)), ("C",9991/1000), ("E",9/500), ("B",-10), ("D",-10)] = 0
      ∧ KeysNodup [("A",(9991/1000:ℚ)), ("C",9991/1000), ("E",9/500), ("B",-10), ("D",-10)]
      ∧ settle [("A",(9991/1000:ℚ)), ("C",9991/1000), ("E",9/500), ("B",-10), ("D",-10)]
          = [⟨"B","A",9991/1000⟩, ⟨"D","C",9991/1000⟩]
      ∧ delta "E" (settle [("A",(9991/1000:ℚ)), ("C",9991/1000), ("E",9/500), ("B",-10), ("D",-10)]) = 0
      ∧ eps < |(9/500:ℚ)
          + delta "E" (settle [("A",(9991/1000:ℚ)), ("C",9991/1000), ("E",9/500), ("B",-10), ("D",-10)])|) := by
  refine ⟨⟨?_, ?_, ?_⟩, ?_, ?_, ?_, ?_, ?_⟩
  · norm_num [sumVals]
  · norm_num +decide [settle, settleLoop, settleStep, creditorsOf, debtorsOf, maxBy,
      minBy, pickMax, pickMin, setVal, eraseKey, eps, List.filter, min_def,
      abs_of_nonneg, abs_of_nonpos]
  · norm_num +decide [settle, settleLoop, settleStep, creditorsOf, debtorsOf, maxBy,
      minBy, pickMax, pickMin, setVal, eraseKey, eps, List.filter, delta, min_def,
      abs_of_nonneg, abs_of_nonpos]
  · norm_num [sumVals]
  · simp +decide [KeysNodup, keys]
  · norm_num +decide [settle, settleLoop, settleStep, creditorsOf, debtorsOf, maxBy,
      minBy, pickMax, pickMin, setVal, eraseKey, eps, List.filter, min_def,
      abs_of_nonneg, abs_of_nonpos]
  · norm_num +decide [settle, settleLoop, settleStep, creditorsOf, debtorsOf, maxBy,
      minBy, pickMax, pickMin, setVal, eraseKey, eps, List.filter, delta, min_def,
      abs_of_nonneg, abs_of_nonpos]
  · norm_num +decide [settle, settleLoop, settleStep, creditorsOf, debtorsOf, maxBy,
      minBy, pickMax, pickMin, setVal, eraseKey, eps, List.filter, delta, min_def,
      abs_of_nonneg, abs_of_nonpos]

/-- Claim C1 (amended): with the orientation corrected (the settlement
adds its amount to the debtor `from_` and subtracts it from the
creditor `to_`), every adjusted balance lies between 0 and the
original balance, at completion one entire side of the ledger is
within `eps` of zero, and every adjusted balance is within
`|sum of balances| + n * eps` of zero.  Adjustment to within `eps`
for every participant cannot be guaranteed, even when the balances
sum to exactly zero. -/
theorem claim_C1_amended (b : Bal) (hnd : KeysNodup b) :
    (∀ q ∈ b, min 0 q.2 ≤ q.2 + delta q.1 (settle b) ∧
              q.2 + delta q.1 (settle b) ≤ max 0 q.2)
  ∧ ((∀ q ∈ b, q.2 + delta q.1 (settle b) ≤ eps) ∨
     (∀ q ∈ b, -eps ≤ q.2 + delta q.1 (settle b)))
  ∧ (∀ q ∈ b, |q.2 + delta q.1 (settle b)| ≤ |sumVals b| + (b.length : ℚ) * eps) :=
  settle_adjusted hnd

/-- Witness for the amended C1 at the balances A = +50, B = -50. -/
theorem claim_C1_amended_witness :
    KeysNodup [("A",(50:ℚ)), ("B",(-50:ℚ))]
    ∧ ((∀ q ∈ [("A",(50:ℚ)), ("B",(-50:ℚ))],
          min 0 q.2 ≤ q.2 + delta q.1 (settle [("A",(50:ℚ)), ("B",(-50:ℚ))]) ∧
          q.2 + delta q.1 (settle [("A",(50:ℚ)), ("B",(-50:ℚ))]) ≤ max 0 q.2)
      ∧ ((∀ q ∈ [("A",(50:ℚ)), ("B",(-50:ℚ))],
            q.2 + delta q.1 (settle [("A",(50:ℚ)), ("B",(-50:ℚ))]) ≤ eps) ∨
         (∀ q ∈ [("A",(50:ℚ)), ("B",(-50:ℚ))],
            -eps ≤ q.2 + delta q.1 (settle [("A",(50:ℚ)), ("B",(-50:ℚ))])))
      ∧ (∀ q ∈ [("A",(50:ℚ)), ("B",(-50:ℚ))],
          |q.2 + delta q.1 (settle [("A",(50:ℚ)), ("B",(-50:ℚ))])|
            ≤ |sumVals [("A",(50:ℚ)), ("B",(-50:ℚ))]|
              + (([("A",(50:ℚ)), ("B",(-50:ℚ))] : Bal).length : ℚ) * eps)) := by
  have hnd : KeysNodup [("A",(50:ℚ)), ("B",(-50:ℚ))] := by
    simp +decide [KeysNodup, keys]
  exact ⟨hnd, claim_C1_amended _ hnd⟩

end SriLankaTrip
